import Mathlib

/-!
# Siberite: the GET command of the connection controller

A shallow embedding of `controller/get.go` and a verification of the
consumption protocol it implements (open / close / close-open / abort / peek).

Conventions of the embedding

* A Go `string` is a Lean `String`; a Go `[]byte` is `Option Bytes`
  where `none` is the nil slice, and `Bytes` alone where only the contents and
  the length are observed.
* A Go `error` is `Option String`: `none` is `nil`, `some msg` is an error
  whose `Error()` text is `msg`.
* An index expression that can fail at run time is evaluated in `Option`;
  `none` is the run-time fault.
* The queue repository is an external collaborator. It is a parameter of
  every controller function: a record `Store σ κ` of operations over an
  arbitrary store state `σ` and an arbitrary type `κ` of consumer handles.
  Every operation returns the next store state, so a store may change or fail
  at any call.
* The controller record carries, besides the fields of the Go struct, a log
  `calls` of the operations it invoked on the store, in the order of issue.
  The log is never read by the code.
* Calls to `log.Printf` and to `Flush` have no effect on any modelled field.
-/

namespace Siberite

/-- A byte string, the contents of a Go byte slice. -/
abbrev Bytes := List UInt8

/-- The bytes of a Go string (its UTF-8 encoding). -/
def goBytes (s : String) : Bytes :=
  s.data.flatMap String.utf8EncodeChar

/-! ## The `strings` and `regexp` functions used by the parser -/

namespace strings

/-- Substring test on character lists. -/
def containsL : List Char → List Char → Bool
  | [], sub => sub.isEmpty
  | c :: s, sub => sub.isPrefixOf (c :: s) || containsL s sub

/-- Go `strings.Contains(s, substr)`. -/
def Contains (s substr : String) : Bool :=
  containsL s.data substr.data

/-- Splits at the first occurrence of the separator, which is dropped. -/
def cut (sep : Char) : List Char → Option (List Char × List Char)
  | [] => none
  | c :: s =>
    if c = sep then some ([], s)
    else
      match cut sep s with
      | some (a, b) => some (c :: a, b)
      | none => none

/-- The pieces of `strings.SplitN` for a one-character separator and a count
`n ≥ 0`: at most `n` pieces, the last one being the unsplit remainder. -/
def splitNL (sep : Char) : Nat → List Char → List (List Char)
  | 0, _ => []
  | 1, s => [s]
  | n + 2, s =>
    match cut sep s with
    | none => [s]
    | some (a, b) => a :: splitNL sep (n + 1) b

/-- Go `strings.SplitN(s, sep, n)` for a one-character separator `sep`
(the code calls it with "/" and ":") and `n ≥ 0`. -/
def SplitN (s : String) (sep : Char) (n : Nat) : List String :=
  (splitNL sep n s.data).map String.mk

/-- Removes the leading and the trailing characters that belong to the cutset. -/
def trimL (cutset : List Char) (s : List Char) : List Char :=
  ((s.dropWhile (fun c => cutset.contains c)).reverse.dropWhile
    (fun c => cutset.contains c)).reverse

/-- Go `strings.Trim(s, cutset)`. -/
def Trim (s cutset : String) : String :=
  String.mk (trimL cutset.data s.data)

end strings

namespace timeoutRegexp

/-- Length of the match of the pattern `(t\=\d+)\/?` that starts at the head
of the list, if there is one: the two characters `t=`, the longest non-empty
run of ASCII digits, and one `/` when it follows. -/
def matchAt : List Char → Option Nat
  | 't' :: '=' :: d :: rest =>
    if d.isDigit then
      some (3 + (rest.takeWhile Char.isDigit).length
        + (if (rest.dropWhile Char.isDigit).head? = some '/' then 1 else 0))
    else none
  | _ => none

/-- Scans left to right and deletes every match; the first argument is the
number of characters of the current match still to be deleted. -/
def deleteAll : Nat → List Char → List Char
  | _, [] => []
  | k + 1, _ :: rest => deleteAll k rest
  | 0, c :: rest =>
    match matchAt (c :: rest) with
    | some (n + 1) => deleteAll n rest
    | _ => c :: deleteAll 0 rest

/-- Go `timeoutRegexp.ReplaceAllString(s, "")` for
`timeoutRegexp = regexp.MustCompile("(t\=\d+)\/?")` (get.go line 14). -/
def ReplaceAllString (s : String) : String :=
  String.mk (deleteAll 0 s.data)

end timeoutRegexp

/-! ## Command and parser -/

/-- Modelled from the spec: the declaration of the `Command` struct is not part
of `get.go`; these are the fields `get.go` reads and writes (spec §3:
queue name, subcommand, optional consumer group, empty = none). -/
structure Command where
  Name : String
  QueueName : String
  SubCommand : String
  ConsumerGroup : String
  deriving DecidableEq

/-- Go `parseGetCommand` (get.go lines 134-151). `none` is an index out of
range. The Go function also overwrites `input[1]` in the caller's slice with
the queue spec stripped of its timeout marker; the slice is not used again. -/
def parseGetCommand (input : List String) : Option Command := do
  let name ← input[0]?
  let spec ← input[1]?
  let cmd : Command :=
    { Name := name, QueueName := spec, SubCommand := "", ConsumerGroup := "" }
  let input1 :=
    if strings.Contains spec "t=" then timeoutRegexp.ReplaceAllString spec else spec
  let cmd ←
    if strings.Contains input1 "/" then do
      let tokens := strings.SplitN input1 '/' 2
      let t0 ← tokens[0]?
      let t1 ← tokens[1]?
      pure { cmd with QueueName := t0, SubCommand := strings.Trim t1 "/" }
    else pure cmd
  if strings.Contains cmd.QueueName ":" then do
    let tokens := strings.SplitN cmd.QueueName ':' 3
    let t0 ← tokens[0]?
    let t1 ← tokens[1]?
    pure { cmd with QueueName := t0, ConsumerGroup := t1 }
  else pure cmd

/-! ## The store interface and the controller -/

/-- The capability interface `get.go` requires from the queue repository
(`c.repo.GetQueue`) and from a `queue.Consumer` (`ConsumerGroup`, `GetNext`,
`Peek`, `PutBack`), as functions of the store state `σ` over consumer handles
`κ`. `GetNext` and `Peek` return the payload and a second result that
`get.go` discards. -/
structure Store (σ κ : Type) where
  GetQueue : σ → String → Except String κ × σ
  ConsumerGroup : σ → κ → String → Except String κ × σ
  GetNext : σ → κ → (Bytes × Bool) × σ
  Peek : σ → κ → (Bytes × Bool) × σ
  PutBack : σ → κ → Bytes → Option String × σ

/-- An operation the controller invoked on the store or on a consumer's
statistics; `GetNext` is logged with the payload it returned, `PutBack` with
the error it returned. -/
inductive Call (κ : Type) where
  | GetQueue (name : String)
  | ConsumerGroup (q : κ) (name : String)
  | GetNext (q : κ) (value : Bytes)
  | Peek (q : κ)
  | PutBack (q : κ) (value : Bytes) (err : Option String)
  | UpdateOpenReads (q : κ) (delta : Int)
  deriving DecidableEq

/-- The `Controller` of one connection, with the state it shares with the
store: `currentValue` and `currentCommand` are the held item and its command
context, `rw` the bytes written to `c.rw.Writer`, `repo` the store state,
`CmdGet` the counter `c.repo.Stats.CmdGet`, `openReads` the open-reads counter
of every consumer, `calls` the log of store operations. -/
structure Controller (σ κ : Type) where
  currentValue : Option Bytes
  currentCommand : Option Command
  rw : Bytes
  repo : σ
  CmdGet : Nat
  openReads : κ → Int
  calls : List (Call κ)

variable {σ κ : Type} [DecidableEq κ]

/-- Modelled from the spec: `setCurrentState` is not part of `get.go`. Spec §3:
the connection state is the held item plus the `Command` context under which
it was obtained; it is populated by a successful open and cleared by close and
abort. -/
def Controller.setCurrentState (c : Controller σ κ) (cmd : Option Command)
    (value : Option Bytes) : Controller σ κ :=
  { c with currentCommand := cmd, currentValue := value }

/-- Modelled from the spec: `q.Stats().UpdateOpenReads(delta)` is not part of
`get.go`. Spec §3 and §6: it adds `delta` to the outstanding open-reads
counter of the consumer `q`. The call is logged. -/
def Controller.UpdateOpenReads (c : Controller σ κ) (q : κ) (delta : Int) :
    Controller σ κ :=
  { c with
    openReads := Function.update c.openReads q (c.openReads q + delta),
    calls := c.calls ++ [Call.UpdateOpenReads q delta] }

/-- Writes bytes to `c.rw.Writer`. -/
def Controller.write (c : Controller σ κ) (b : Bytes) : Controller σ κ :=
  { c with rw := c.rw ++ b }

/-- The two `fmt.Fprintf` calls that emit a VALUE block (get.go lines 75-76
and 127-128). -/
def Controller.writeValue (c : Controller σ κ) (cmd : Command) (value : Bytes) :
    Controller σ κ :=
  (c.write (goBytes ("VALUE " ++ cmd.QueueName ++ " 0 " ++ toString value.length ++ "\r\n"))).write
    (value ++ goBytes "\r\n")

/-- Go `Controller.getConsumer` (get.go lines 51-61). -/
def Controller.getConsumer (S : Store σ κ) (c : Controller σ κ) (cmd : Command) :
    Except String κ × Controller σ κ :=
  if cmd.ConsumerGroup = "" then
    let r := S.GetQueue c.repo cmd.QueueName
    (r.1, { c with repo := r.2, calls := c.calls ++ [Call.GetQueue cmd.QueueName] })
  else
    let r := S.GetQueue c.repo cmd.QueueName
    let c1 := { c with repo := r.2, calls := c.calls ++ [Call.GetQueue cmd.QueueName] }
    match r.1 with
    | .ok q =>
      let r2 := S.ConsumerGroup c1.repo q cmd.ConsumerGroup
      (r2.1, { c1 with repo := r2.2,
                       calls := c1.calls ++ [Call.ConsumerGroup q cmd.ConsumerGroup] })
    | .error err => (.error err, c1)

/-- Go `Controller.get` (get.go lines 63-84). -/
def Controller.get (S : Store σ κ) (c : Controller σ κ) (cmd : Command) :
    Option String × Controller σ κ :=
  if c.currentValue ≠ none then
    (some ("CLIENT_ERROR " ++ "Close current item first"), c)
  else
    match Controller.getConsumer S c cmd with
    | (.error err, c1) => (some ("SERVER_ERROR " ++ err), c1)
    | (.ok q, c1) =>
      let r := S.GetNext c1.repo q
      let value := r.1.1
      let c2 := { c1 with repo := r.2, calls := c1.calls ++ [Call.GetNext q value] }
      let c3 := if value.length > 0 then c2.writeValue cmd value else c2
      let c4 :=
        if strings.Contains cmd.SubCommand "open" ∧ value.length > 0 then
          (c3.setCurrentState (some cmd) (some value)).UpdateOpenReads q 1
        else c3
      (none, { c4 with CmdGet := (c4.CmdGet + 1) % 2 ^ 64 })

/-- Go `Controller.getClose` (get.go lines 86-98). -/
def Controller.getClose (S : Store σ κ) (c : Controller σ κ) (cmd : Command) :
    Option String × Controller σ κ :=
  match Controller.getConsumer S c cmd with
  | (.error err, c1) => (some ("SERVER_ERROR " ++ err), c1)
  | (.ok q, c1) =>
    if c1.currentValue ≠ none then
      (none, (c1.UpdateOpenReads q (-1)).setCurrentState none none)
    else (none, c1)

/-- Go `Controller.abort` (get.go lines 100-117). -/
def Controller.abort (S : Store σ κ) (c : Controller σ κ) (cmd : Command) :
    Option String × Controller σ κ :=
  match c.currentValue with
  | some held =>
    match Controller.getConsumer S c cmd with
    | (.error err, c1) => (some ("SERVER_ERROR " ++ err), c1)
    | (.ok q, c1) =>
      let r := S.PutBack c1.repo q held
      let c2 := { c1 with repo := r.2, calls := c1.calls ++ [Call.PutBack q held r.1] }
      match r.1 with
      | some err => (some ("SERVER_ERROR " ++ err), c2)
      | none =>
        if c2.currentValue ≠ none then
          (none, (c2.UpdateOpenReads q (-1)).setCurrentState none none)
        else (none, c2)
  | none => (none, c)

/-- Go `Controller.peek` (get.go lines 119-132). -/
def Controller.peek (S : Store σ κ) (c : Controller σ κ) (cmd : Command) :
    Option String × Controller σ κ :=
  match Controller.getConsumer S c cmd with
  | (.error err, c1) => (some ("SERVER_ERROR " ++ err), c1)
  | (.ok q, c1) =>
    let r := S.Peek c1.repo q
    let value := r.1.1
    let c2 := { c1 with repo := r.2, calls := c1.calls ++ [Call.Peek q] }
    let c3 := if value.length > 0 then c2.writeValue cmd value else c2
    (none, { c3 with CmdGet := (c3.CmdGet + 1) % 2 ^ 64 })

/-- The `switch` of `Controller.Get` (get.go lines 26-41). -/
def Controller.dispatch (S : Store σ κ) (c : Controller σ κ) (cmd : Command) :
    Option String × Controller σ κ :=
  if cmd.SubCommand = "" ∨ cmd.SubCommand = "open" then Controller.get S c cmd
  else if cmd.SubCommand = "close" then Controller.getClose S c cmd
  else if cmd.SubCommand = "close/open" then
    match Controller.getClose S c cmd with
    | (none, c1) => Controller.get S c1 cmd
    | (some err, c1) => (some err, c1)
  else if cmd.SubCommand = "abort" then Controller.abort S c cmd
  else if cmd.SubCommand = "peek" then Controller.peek S c cmd
  else (some ("ERROR " ++ "Invalid command"), c)

/-- Go `Controller.Get` (get.go lines 22-49): the returned error and the
controller after the call; `none` when `parseGetCommand` faults. -/
def Controller.Get (S : Store σ κ) (c : Controller σ κ) (input : List String) :
    Option (Option String × Controller σ κ) :=
  match parseGetCommand input with
  | none => none
  | some cmd =>
    match Controller.dispatch S c cmd with
    | (some err, c1) => some (some err, c1)
    | (none, c1) => some (none, c1.write (goBytes "END\r\n"))

/-- The controller after a sequence of GET commands on one connection, each
processed by `Get` whatever the previous one returned. -/
def Controller.run (S : Store σ κ) (c : Controller σ κ) :
    List (List String) → Option (Controller σ κ)
  | [] => some c
  | input :: rest =>
    match Controller.Get S c input with
    | none => none
    | some r => Controller.run S r.2 rest

/-- The controller left by one `Get` call (unchanged when the call faults). -/
def Controller.after {σ κ : Type} [DecidableEq κ] (S : Store σ κ) (c : Controller σ κ)
    (input : List String) : Controller σ κ :=
  match Controller.Get S c input with
  | some r => r.2
  | none => c

/-! ## Properties of the log of store operations -/

/-- The call is a `GetNext`. -/
def Call.isGetNext : Call κ → Bool
  | .GetNext _ _ => true
  | _ => false

/-- The call is a `PutBack`. -/
def Call.isPutBack : Call κ → Bool
  | .PutBack _ _ _ => true
  | _ => false

/-- The call is a queue or consumer-group lookup. -/
def Call.isLookup : Call κ → Bool
  | .GetQueue _ => true
  | .ConsumerGroup _ _ => true
  | _ => false

/-- The call is an `UpdateOpenReads`. -/
def Call.isUpdateOpenReads : Call κ → Bool
  | .UpdateOpenReads _ _ => true
  | _ => false

/-! ## Accounting over the log -/

/-- The sum of the open-reads deltas issued in a log. -/
def deltaSum {κ : Type} (calls : List (Call κ)) : Int :=
  calls.foldl (fun acc e =>
    match e with
    | .UpdateOpenReads _ d => acc + d
    | _ => acc) 0

/-- The consumer of the last `UpdateOpenReads(+1)` of a log: the consumer from
which the most recent held item was obtained. -/
def lastOpenedFrom {κ : Type} (calls : List (Call κ)) : Option κ :=
  calls.foldl (fun acc e =>
    match e with
    | .UpdateOpenReads q d => if d = 1 then some q else acc
    | _ => acc) none

/-- The consumer that received the last +1 delta, while an item is held;
`none` when nothing is held. -/
def Controller.creditedTo {σ κ : Type} (c : Controller σ κ) : Option κ :=
  if c.currentValue = none then none else lastOpenedFrom c.calls

/-- The last `GetNext` call of a log: its consumer and the payload it
returned. -/
def lastGetNext {κ : Type} (calls : List (Call κ)) : Option (κ × Bytes) :=
  calls.foldl (fun acc e =>
    match e with
    | .GetNext q value => some (q, value)
    | _ => acc) none

/-- The consumer from which the currently held item was obtained: the consumer
of the last `GetNext` call, provided the payload that call returned is the
held item; `none` when nothing is held or the held item is not that payload. -/
def Controller.heldFrom {σ κ : Type} (c : Controller σ κ) : Option κ :=
  match c.currentValue with
  | none => none
  | some held =>
    match lastGetNext c.calls with
    | some (q, value) => if value = held then some q else none
    | none => none

/-- The log agrees with the held item: when an item is held, the last
`GetNext` call returned exactly that item, and the last +1 delta went to the
consumer of that call. -/
def Synced {σ κ : Type} (c : Controller σ κ) : Prop :=
  ∀ held, c.currentValue = some held →
    ∃ q, lastGetNext c.calls = some (q, held) ∧ lastOpenedFrom c.calls = some q

/-- The command is a `close`, `close/open` or `abort` issued while an item is
held and resolving to a consumer other than the one the item was obtained
from. Commands that do not parse, do not release or do not resolve are never
mismatched. -/
def Controller.mismatchedRelease {σ κ : Type} [DecidableEq κ] (S : Store σ κ)
    (c : Controller σ κ) (input : List String) : Bool :=
  match parseGetCommand input with
  | none => false
  | some cmd =>
    if c.currentValue ≠ none ∧
        (cmd.SubCommand = "close" ∨ cmd.SubCommand = "close/open" ∨ cmd.SubCommand = "abort") then
      match (c.getConsumer S cmd).1 with
      | .ok q => decide (c.heldFrom ≠ some q)
      | .error _ => false
    else false

/-- Every release in the sequence names the consumer the held item was
obtained from. -/
def Controller.releasesMatch {σ κ : Type} [DecidableEq κ] (S : Store σ κ) :
    Controller σ κ → List (List String) → Bool
  | _, [] => true
  | c, input :: rest =>
    !c.mismatchedRelease S input && Controller.releasesMatch S (c.after S input) rest

/-- Bookkeeping of a log: whether a +1 delta is outstanding, whether a PutBack
has succeeded since that +1, and whether the log has been regular so far. -/
structure Ledger where
  held : Bool
  putBack : Bool
  ok : Bool
  deriving DecidableEq

/-- One call of the log. A +1 delta is regular only when none is outstanding;
a -1 delta only when a +1 is outstanding; a successful PutBack only when a +1
is outstanding and no PutBack has succeeded since; any other delta is
irregular. -/
def Ledger.step {κ : Type} (l : Ledger) : Call κ → Ledger
  | .UpdateOpenReads _ d =>
    if d = 1 then { held := true, putBack := false, ok := l.ok && !l.held }
    else if d = -1 then { held := false, putBack := false, ok := l.ok && l.held }
    else { l with ok := false }
  | .PutBack _ _ none => { l with putBack := true, ok := l.ok && l.held && !l.putBack }
  | _ => l

/-- The ledger of a whole log. -/
def ledger {κ : Type} (calls : List (Call κ)) : Ledger :=
  calls.foldl Ledger.step ⟨false, false, true⟩

/-- The call neither updates a counter nor is a successful PutBack. -/
def Call.quiet {κ : Type} : Call κ → Bool
  | .UpdateOpenReads _ _ => false
  | .PutBack _ _ none => false
  | _ => true

/-- A step that keeps the held item and the counters and issues only quiet
calls. -/
def Frame {σ κ : Type} (c c1 : Controller σ κ) : Prop :=
  c1.currentValue = c.currentValue ∧ c1.openReads = c.openReads ∧
    ∃ new, c1.calls = c.calls ++ new ∧ ∀ e ∈ new, Call.quiet e = true

/-- A step from idle that takes a non-empty item from the consumer `q`. -/
def Acquire {σ κ : Type} [DecidableEq κ] (c c1 : Controller σ κ) (q : κ) : Prop :=
  c.currentValue = none ∧ (∃ v, v ≠ [] ∧ c1.currentValue = some v) ∧
    c1.openReads = Function.update c.openReads q (c.openReads q + 1) ∧
    ∃ new, c1.calls = c.calls ++ new ++ [Call.UpdateOpenReads q 1] ∧
      ∀ e ∈ new, Call.quiet e = true

/-- A step that releases the held item on the consumer `q`, after at most one
successful PutBack. -/
def Release {σ κ : Type} [DecidableEq κ] (c c1 : Controller σ κ) (q : κ) : Prop :=
  c.currentValue ≠ none ∧ c1.currentValue = none ∧
    c1.openReads = Function.update c.openReads q (c.openReads q + -1) ∧
    ∃ new pb, c1.calls = c.calls ++ new ++ pb ++ [Call.UpdateOpenReads q (-1)] ∧
      (∀ e ∈ new, Call.quiet e = true) ∧ (pb = [] ∨ ∃ v, pb = [Call.PutBack q v none])

/-! ## An in-memory store for concrete runs -/

/-- State of the in-memory store: the items of every consumer, front first,
keyed by consumer name, and the number of queue lookups that still succeed
(`none`: every lookup of an existing queue succeeds). -/
structure MemState where
  queues : List (String × List Bytes)
  lookups : Option Nat

/-- Replaces the items of one consumer. -/
def MemState.setItems (s : MemState) (q : String) (items : List Bytes) : MemState :=
  { s with queues := (q, items) :: s.queues.filter (fun p => p.1 != q) }

/-- An in-memory store: a queue exists when it is listed; the group `g` of the
queue `q` is the consumer named `q:g` with items of its own; `GetNext` removes
the front item, `Peek` reads it, `PutBack` puts an item at the front. A lookup
fails once the budget of lookups is used up. -/
def memStore : Store MemState String where
  GetQueue s name :=
    match s.lookups with
    | some 0 => (.error "store unavailable", s)
    | budget =>
      let s1 := { s with lookups := budget.map Nat.pred }
      if (s.queues.lookup name).isSome then (.ok name, s1)
      else (.error "queue not found", s1)
  ConsumerGroup s q g := (.ok (q ++ ":" ++ g), s)
  GetNext s q :=
    match s.queues.lookup q with
    | some (item :: rest) => ((item, true), s.setItems q rest)
    | _ => (([], false), s)
  Peek s q :=
    match s.queues.lookup q with
    | some (item :: _) => ((item, true), s)
    | _ => (([], false), s)
  PutBack s q item := (none, s.setItems q (item :: (s.queues.lookup q).getD []))

/-- A fresh connection over a store state: nothing held, nothing written,
all counters zero, no call issued. -/
def freshController (s : MemState) : Controller MemState String :=
  { currentValue := none, currentCommand := none, rw := [], repo := s, CmdGet := 0,
    openReads := fun _ => 0, calls := [] }

/-- A connection that holds `item` under the command context `cmd`. -/
def holdingController (s : MemState) (cmd : Command) (item : Bytes) :
    Controller MemState String :=
  { freshController s with currentValue := some item, currentCommand := some cmd }

/-- The payload "hello". -/
def hello : Bytes := goBytes "hello"

/-- The command context of `GET q/open`. -/
def openQ : Command :=
  { Name := "GET", QueueName := "q", SubCommand := "open", ConsumerGroup := "" }

/-- A store with the single queue `q` holding the one item "hello". -/
def helloStore : MemState := ⟨[("q", [hello])], none⟩

/-- The connection that has opened "hello" from `q` with `GET q/open`. -/
def openedHello : Controller MemState String :=
  (freshController helloStore).after memStore ["GET", "q/open"]

/-- The command context of `GET q/close/open`. -/
def closeOpenQ : Command :=
  { Name := "GET", QueueName := "q", SubCommand := "close/open", ConsumerGroup := "" }

/-- A store with the empty queue `q` in which one more lookup succeeds and
every later one fails. -/
def failingStore : MemState := ⟨[("q", [])], some 1⟩

/-- The command context of `GET q/close`. -/
def closeQ : Command :=
  { Name := "GET", QueueName := "q", SubCommand := "close", ConsumerGroup := "" }

/-- A store with the queue `a` holding "hello" and the empty queue `b`. -/
def twoQueues : MemState := ⟨[("a", [hello]), ("b", [])], none⟩

/-- The command context of `GET q/peek`. -/
def peekQ : Command :=
  { Name := "GET", QueueName := "q", SubCommand := "peek", ConsumerGroup := "" }

/-- A store whose queue `q` has the empty payload at its front. -/
def emptyItemStore : MemState := ⟨[("q", [[]])], none⟩

/-- A store with the queue `q` and its consumer group `g` holding "hello". -/
def groupStore : MemState := ⟨[("q", []), ("q:g", [hello])], none⟩

/-- The command context of `GET q:g/open`. -/
def openQG : Command :=
  { Name := "GET", QueueName := "q", SubCommand := "open", ConsumerGroup := "g" }

/-- The VALUE block of the response framing for a queue name and a payload:
`VALUE <queue> 0 <decimal length>` CR LF, the payload, CR LF. -/
def valueBlock (queue : String) (value : Bytes) : Bytes :=
  goBytes ("VALUE " ++ queue ++ " 0 " ++ toString value.length ++ "\r\n") ++ value
    ++ goBytes "\r\n"

/-- The error text belongs to one of the three error classes of the protocol:
it begins with `CLIENT_ERROR `, `SERVER_ERROR ` or `ERROR `. -/
def classified (err : String) : Prop :=
  (∃ msg, err = "CLIENT_ERROR " ++ msg) ∨ (∃ msg, err = "SERVER_ERROR " ++ msg) ∨
    ∃ msg, err = "ERROR " ++ msg

/-- The in-memory store with a PutBack that always fails. -/
def rejectingStore : Store MemState String :=
  { memStore with PutBack := fun s _ _ => (some "put back failed", s) }

/-- The connection that has opened "hello" from the queue `a` of `twoQueues`
with `GET a/open`, over the store whose PutBack fails. -/
def openedFromA : Controller MemState String :=
  (freshController twoQueues).after rejectingStore ["GET", "a/open"]

/-! ## Lemmas on consumer resolution -/

section Lemmas

variable {σ κ : Type}

@[simp] theorem getConsumer_currentValue (S : Store σ κ) (c : Controller σ κ) (cmd : Command) :
    (c.getConsumer S cmd).2.currentValue = c.currentValue := by
  unfold Controller.getConsumer
  split
  · rfl
  · dsimp only
    split <;> rfl

@[simp] theorem getConsumer_currentCommand (S : Store σ κ) (c : Controller σ κ) (cmd : Command) :
    (c.getConsumer S cmd).2.currentCommand = c.currentCommand := by
  unfold Controller.getConsumer
  split
  · rfl
  · dsimp only
    split <;> rfl

@[simp] theorem getConsumer_rw (S : Store σ κ) (c : Controller σ κ) (cmd : Command) :
    (c.getConsumer S cmd).2.rw = c.rw := by
  unfold Controller.getConsumer
  split
  · rfl
  · dsimp only
    split <;> rfl

@[simp] theorem getConsumer_CmdGet (S : Store σ κ) (c : Controller σ κ) (cmd : Command) :
    (c.getConsumer S cmd).2.CmdGet = c.CmdGet := by
  unfold Controller.getConsumer
  split
  · rfl
  · dsimp only
    split <;> rfl

@[simp] theorem getConsumer_openReads (S : Store σ κ) (c : Controller σ κ) (cmd : Command) :
    (c.getConsumer S cmd).2.openReads = c.openReads := by
  unfold Controller.getConsumer
  split
  · rfl
  · dsimp only
    split <;> rfl

/-- Resolution appends only lookups to the log. -/
theorem getConsumer_calls (S : Store σ κ) (c : Controller σ κ) (cmd : Command) :
    ∃ new, (c.getConsumer S cmd).2.calls = c.calls ++ new ∧
      ∀ e ∈ new, Call.isLookup e = true := by
  unfold Controller.getConsumer
  split
  · exact ⟨[Call.GetQueue cmd.QueueName], rfl, by simp [Call.isLookup]⟩
  · dsimp only
    split
    · next q _ =>
      exact ⟨[Call.GetQueue cmd.QueueName, Call.ConsumerGroup q cmd.ConsumerGroup],
        by simp, by simp [Call.isLookup]⟩
    · exact ⟨[Call.GetQueue cmd.QueueName], rfl, by simp [Call.isLookup]⟩

@[simp] theorem contains_open_open : strings.Contains "open" "open" = true := by decide

@[simp] theorem contains_closeopen_open : strings.Contains "close/open" "open" = true := by
  decide

@[simp] theorem contains_empty_open : strings.Contains "" "open" = false := by decide

/-- Shared: what a successful abort of a held item does. -/
theorem Get_abort_held [DecidableEq κ] (S : Store σ κ) (c : Controller σ κ)
    (input : List String) (cmd : Command) (v : Bytes) (q : κ)
    (hparse : parseGetCommand input = some cmd)
    (hsub : cmd.SubCommand = "abort")
    (hheld : c.currentValue = some v)
    (hres : (c.getConsumer S cmd).1 = .ok q)
    (hput : (S.PutBack (c.getConsumer S cmd).2.repo q v).1 = none) :
    Controller.Get S c input = some (none,
      ((({ (c.getConsumer S cmd).2 with
            repo := (S.PutBack (c.getConsumer S cmd).2.repo q v).2,
            calls := (c.getConsumer S cmd).2.calls ++ [Call.PutBack q v none] }).UpdateOpenReads
          q (-1)).setCurrentState none none).write (goBytes "END\r\n")) := by
  rcases hgc : c.getConsumer S cmd with ⟨r, c1⟩
  rw [hgc] at hres hput
  simp only at hres hput
  subst hres
  have hcv : c1.currentValue = some v := by
    have := getConsumer_currentValue S c cmd
    rw [hgc] at this
    rw [this, hheld]
  simp [Controller.Get, hparse, Controller.dispatch, hsub, Controller.abort, hheld, hgc, hput, hcv]

/-- Shared: what an open does on an idle connection when a non-empty item is
delivered. -/
theorem Get_open_idle_item [DecidableEq κ] (S : Store σ κ) (c : Controller σ κ)
    (input : List String) (cmd : Command) (q : κ)
    (hparse : parseGetCommand input = some cmd)
    (hsub : cmd.SubCommand = "open")
    (hidle : c.currentValue = none)
    (hres : (c.getConsumer S cmd).1 = .ok q)
    (hitem : (S.GetNext (c.getConsumer S cmd).2.repo q).1.1 ≠ []) :
    Controller.Get S c input = some (none,
      { (((({ (c.getConsumer S cmd).2 with
            repo := (S.GetNext (c.getConsumer S cmd).2.repo q).2,
            calls := (c.getConsumer S cmd).2.calls
              ++ [Call.GetNext q (S.GetNext (c.getConsumer S cmd).2.repo q).1.1] }).writeValue cmd
              (S.GetNext (c.getConsumer S cmd).2.repo q).1.1).setCurrentState (some cmd)
              (some (S.GetNext (c.getConsumer S cmd).2.repo q).1.1)).UpdateOpenReads q 1).write
                (goBytes "END\r\n") with
        CmdGet := ((c.getConsumer S cmd).2.CmdGet + 1) % 2 ^ 64 }) := by
  have hlen : 0 < ((S.GetNext (c.getConsumer S cmd).2.repo q).1.1).length :=
    List.length_pos.mpr hitem
  rcases hgc : c.getConsumer S cmd with ⟨r, c1⟩
  rw [hgc] at hres hlen
  simp only at hres hlen
  subst hres
  simp [Controller.Get, hparse, Controller.dispatch, hsub, Controller.get, hidle, hgc, hlen,
    Controller.write, Controller.UpdateOpenReads, Controller.setCurrentState,
    Controller.writeValue]

/-- Shared: `get` returning an error leaves the connection state and the
counters alone. -/
theorem get_error_frame [DecidableEq κ] (S : Store σ κ) (c c1 : Controller σ κ) (cmd : Command)
    (err : String) (h : c.get S cmd = (some err, c1)) :
    c1.currentValue = c.currentValue ∧ c1.currentCommand = c.currentCommand ∧
      c1.openReads = c.openReads := by
  unfold Controller.get at h
  split at h
  · cases h; exact ⟨rfl, rfl, rfl⟩
  · split at h
    · next e c2 hgc =>
      cases h
      have h1 := getConsumer_currentValue S c cmd
      have h2 := getConsumer_currentCommand S c cmd
      have h3 := getConsumer_openReads S c cmd
      rw [hgc] at h1 h2 h3
      exact ⟨h1, h2, h3⟩
    · cases h

/-- Shared: `getClose` returning an error leaves the connection state and the
counters alone. -/
theorem getClose_error_frame [DecidableEq κ] (S : Store σ κ) (c c1 : Controller σ κ)
    (cmd : Command) (err : String) (h : c.getClose S cmd = (some err, c1)) :
    c1.currentValue = c.currentValue ∧ c1.currentCommand = c.currentCommand ∧
      c1.openReads = c.openReads := by
  unfold Controller.getClose at h
  split at h
  · next e c2 hgc =>
    cases h
    have h1 := getConsumer_currentValue S c cmd
    have h2 := getConsumer_currentCommand S c cmd
    have h3 := getConsumer_openReads S c cmd
    rw [hgc] at h1 h2 h3
    exact ⟨h1, h2, h3⟩
  · split at h <;> cases h

/-- Shared: `abort` returning an error leaves the connection state and the
counters alone. -/
theorem abort_error_frame [DecidableEq κ] (S : Store σ κ) (c c1 : Controller σ κ)
    (cmd : Command) (err : String) (h : c.abort S cmd = (some err, c1)) :
    c1.currentValue = c.currentValue ∧ c1.currentCommand = c.currentCommand ∧
      c1.openReads = c.openReads := by
  unfold Controller.abort at h
  split at h
  · split at h
    · next e c2 hgc =>
      cases h
      have h1 := getConsumer_currentValue S c cmd
      have h2 := getConsumer_currentCommand S c cmd
      have h3 := getConsumer_openReads S c cmd
      rw [hgc] at h1 h2 h3
      exact ⟨h1, h2, h3⟩
    · next q c2 hgc =>
      have h1 := getConsumer_currentValue S c cmd
      have h2 := getConsumer_currentCommand S c cmd
      have h3 := getConsumer_openReads S c cmd
      rw [hgc] at h1 h2 h3
      dsimp only at h
      split at h
      · cases h
        exact ⟨h1, h2, h3⟩
      · split at h <;> cases h
  · cases h

/-- Shared: `peek` leaves the connection state and the counters alone, whatever
it returns. -/
theorem peek_frame (S : Store σ κ) (c : Controller σ κ) (cmd : Command) :
    (c.peek S cmd).2.currentValue = c.currentValue ∧
      (c.peek S cmd).2.currentCommand = c.currentCommand ∧
      (c.peek S cmd).2.openReads = c.openReads := by
  have h1 := getConsumer_currentValue S c cmd
  have h2 := getConsumer_currentCommand S c cmd
  have h3 := getConsumer_openReads S c cmd
  unfold Controller.peek
  split
  · next e c2 hgc =>
    rw [hgc] at h1 h2 h3
    exact ⟨h1, h2, h3⟩
  · next q c2 hgc =>
    rw [hgc] at h1 h2 h3
    dsimp only
    split <;> exact ⟨h1, h2, h3⟩

/-- Shared: what a successful `getClose` leaves behind. -/
theorem getClose_ok [DecidableEq κ] (S : Store σ κ) (c c1 : Controller σ κ)
    (cmd : Command) (h : c.getClose S cmd = (none, c1)) :
    ∃ q, (c.getConsumer S cmd).1 = .ok q ∧ c1.currentValue = none ∧
      c1.rw = c.rw ∧ c1.CmdGet = c.CmdGet ∧ c1.repo = (c.getConsumer S cmd).2.repo ∧
      ((c.currentValue = none ∧ c1.currentCommand = c.currentCommand ∧
          c1.openReads = c.openReads ∧ c1.calls = (c.getConsumer S cmd).2.calls) ∨
        (c.currentValue ≠ none ∧ c1.currentCommand = none ∧
          c1.openReads = Function.update c.openReads q (c.openReads q + -1) ∧
          c1.calls = (c.getConsumer S cmd).2.calls ++ [Call.UpdateOpenReads q (-1)])) := by
  have h1 := getConsumer_currentValue S c cmd
  have h2 := getConsumer_currentCommand S c cmd
  have h3 := getConsumer_openReads S c cmd
  have h4 := getConsumer_rw S c cmd
  have h5 := getConsumer_CmdGet S c cmd
  unfold Controller.getClose at h
  split at h
  · cases h
  · next q c2 hgc =>
    rw [hgc] at h1 h2 h3 h4 h5
    simp only at h1 h2 h3 h4 h5
    refine ⟨q, by rw [hgc], ?_⟩
    split at h
    · next hne =>
      cases h
      rw [h1] at hne
      refine ⟨rfl, h4, h5, by rw [hgc]; rfl, Or.inr ⟨hne, rfl, ?_, by rw [hgc]; rfl⟩⟩
      simp [Controller.UpdateOpenReads, Controller.setCurrentState, h3]
    · next hne =>
      cases h
      have hn : c1.currentValue = none := by simpa using hne
      refine ⟨hn, h4, h5, by rw [hgc], Or.inl ⟨by rw [← h1, hn], h2, h3, by rw [hgc]⟩⟩

/-- Shared: `getClose` succeeds when its consumer resolves. -/
theorem getClose_of_resolved [DecidableEq κ] (S : Store σ κ) (c : Controller σ κ)
    (cmd : Command) (q : κ) (hres : (c.getConsumer S cmd).1 = .ok q) :
    ∃ c1, c.getClose S cmd = (none, c1) := by
  rcases hgc : c.getConsumer S cmd with ⟨r, c2⟩
  rw [hgc] at hres
  simp only at hres
  subst hres
  unfold Controller.getClose
  rw [hgc]
  dsimp only
  split
  · exact ⟨_, rfl⟩
  · exact ⟨_, rfl⟩

/-! ## Lemmas on the parser -/

theorem containsL_singleton (sep : Char) (s : List Char) :
    strings.containsL s [sep] = true ↔ sep ∈ s := by
  induction s with
  | nil => simp [strings.containsL]
  | cons x s ih =>
    simp only [strings.containsL, Bool.or_eq_true, ih, List.mem_cons]
    constructor
    · rintro (h | h)
      · left
        simpa [List.isPrefixOf] using h
      · right
        exact h
    · rintro (h | h)
      · left
        simp [List.isPrefixOf, h]
      · right
        exact h

theorem cut_of_mem (sep : Char) (s : List Char) (h : sep ∈ s) :
    ∃ a b, strings.cut sep s = some (a, b) := by
  induction s with
  | nil => simp at h
  | cons x s ih =>
    unfold strings.cut
    by_cases hx : x = sep
    · simp [hx]
    · have hs : sep ∈ s := by
        rcases List.mem_cons.mp h with h1 | h1
        · exact absurd h1.symm hx
        · exact h1
      obtain ⟨a, b, hab⟩ := ih hs
      simp [hx, hab]

theorem splitNL_succ_ne_nil (sep : Char) (n : Nat) (s : List Char) :
    strings.splitNL sep (n + 1) s ≠ [] := by
  cases n with
  | zero => simp [strings.splitNL]
  | succ n =>
    unfold strings.splitNL
    split <;> simp

/-- When the separator occurs and at least two pieces are asked for, `SplitN`
returns at least two pieces. -/
theorem SplitN_two_pieces (s : String) (sep : Char) (n : Nat)
    (h : strings.Contains s (String.mk [sep]) = true) :
    ∃ t0 t1 rest, strings.SplitN s sep (n + 2) = t0 :: t1 :: rest := by
  have hmem : sep ∈ s.data := (containsL_singleton sep s.data).mp h
  obtain ⟨a, b, hab⟩ := cut_of_mem sep s.data hmem
  have hne := splitNL_succ_ne_nil sep n b
  cases hsp : strings.splitNL sep (n + 1) b with
  | nil => exact absurd hsp hne
  | cons y ys =>
    refine ⟨String.mk a, String.mk y, ys.map String.mk, ?_⟩
    simp [strings.SplitN, strings.splitNL, hab, hsp]

/-- The parser returns a command on every input with at least two tokens. -/
theorem parseGetCommand_isSome (input : List String) (h : 2 ≤ input.length) :
    ∃ cmd, parseGetCommand input = some cmd := by
  match input, h with
  | name :: spec :: rest, _ =>
    simp only [parseGetCommand, List.getElem?_cons_zero, List.getElem?_cons_succ,
      Option.bind_eq_bind, Option.some_bind, Option.pure_def]
    generalize (if strings.Contains spec "t=" = true then
      timeoutRegexp.ReplaceAllString spec else spec) = input1
    by_cases hsl : strings.Contains input1 "/" = true
    · obtain ⟨t0, t1, r, ht⟩ := SplitN_two_pieces input1 '/' 0 hsl
      simp only [hsl, if_true, ht, List.getElem?_cons_zero, List.getElem?_cons_succ,
        Option.some_bind]
      by_cases hco : strings.Contains t0 ":" = true
      · obtain ⟨u0, u1, r2, hu⟩ := SplitN_two_pieces t0 ':' 1 hco
        simp [hco, hu]
      · simp [hco]
    · simp only [hsl, Option.some_bind]
      by_cases hco : strings.Contains spec ":" = true
      · obtain ⟨u0, u1, r2, hu⟩ := SplitN_two_pieces spec ':' 1 hco
        simp [hco, hu]
      · simp [hco]

/-! ## The steps of the handlers -/

theorem Frame.refl (c : Controller σ κ) : Frame c c :=
  ⟨rfl, rfl, [], by simp, by simp⟩

theorem Frame.trans {c c1 c2 : Controller σ κ} (h1 : Frame c c1) (h2 : Frame c1 c2) :
    Frame c c2 := by
  obtain ⟨a1, b1, n1, e1, q1⟩ := h1
  obtain ⟨a2, b2, n2, e2, q2⟩ := h2
  refine ⟨a2.trans a1, b2.trans b1, n1 ++ n2, by rw [e2, e1, List.append_assoc], ?_⟩
  intro e he
  rcases List.mem_append.mp he with h | h
  · exact q1 e h
  · exact q2 e h

theorem Frame.acquire [DecidableEq κ] {c c1 c2 : Controller σ κ} {q : κ} (h1 : Frame c c1)
    (h2 : Acquire c1 c2 q) : Acquire c c2 q := by
  obtain ⟨a1, b1, n1, e1, q1⟩ := h1
  obtain ⟨a2, v2, b2, n2, e2, q2⟩ := h2
  refine ⟨a1 ▸ a2, v2, by rw [b2, b1], n1 ++ n2, by rw [e2, e1]; simp, ?_⟩
  intro e he
  rcases List.mem_append.mp he with h | h
  · exact q1 e h
  · exact q2 e h

theorem getConsumer_frame (S : Store σ κ) (c : Controller σ κ) (cmd : Command) :
    Frame c (c.getConsumer S cmd).2 := by
  obtain ⟨new, hnew, hall⟩ := getConsumer_calls S c cmd
  refine ⟨getConsumer_currentValue S c cmd, getConsumer_openReads S c cmd, new, hnew, ?_⟩
  intro e he
  have := hall e he
  cases e <;> simp_all [Call.isLookup, Call.quiet]

theorem write_frame (c : Controller σ κ) (b : Bytes) : Frame c (c.write b) :=
  ⟨rfl, rfl, [], by simp [Controller.write], by simp⟩

theorem get_step [DecidableEq κ] (S : Store σ κ) (c : Controller σ κ) (cmd : Command) :
    Frame c (c.get S cmd).2 ∨ ∃ q, Acquire c (c.get S cmd).2 q := by
  have hf := getConsumer_frame S c cmd
  unfold Controller.get
  split
  · exact Or.inl (Frame.refl c)
  · next hidle =>
    have hidle : c.currentValue = none := by simpa using hidle
    split
    · next e c1 hgc =>
      rw [hgc] at hf
      exact Or.inl hf
    · next q c1 hgc =>
      rw [hgc] at hf
      obtain ⟨a1, b1, n1, e1, q1⟩ := hf
      simp only at a1 b1 e1
      dsimp only
      by_cases hlen : 0 < (S.GetNext c1.repo q).1.1.length
      · by_cases hopen : strings.Contains cmd.SubCommand "open" = true
        · right
          refine ⟨q, hidle, ⟨_, List.length_pos.mp hlen, ?_⟩, ?_, n1 ++ [Call.GetNext q (S.GetNext c1.repo q).1.1], ?_, ?_⟩
          · simp [hlen, hopen, Controller.UpdateOpenReads, Controller.setCurrentState]
          · simp [hlen, hopen, Controller.UpdateOpenReads, Controller.setCurrentState,
              Controller.writeValue, Controller.write, b1]
          · simp [hlen, hopen, Controller.UpdateOpenReads, Controller.setCurrentState,
              Controller.writeValue, Controller.write, e1]
          · intro e he
            rcases List.mem_append.mp he with h | h
            · exact q1 e h
            · simp at h
              subst h
              rfl
        · left
          refine ⟨?_, ?_, n1 ++ [Call.GetNext q (S.GetNext c1.repo q).1.1], ?_, ?_⟩
          · simp [hlen, hopen, Controller.writeValue, Controller.write, a1]
          · simp [hlen, hopen, Controller.writeValue, Controller.write, b1]
          · simp [hlen, hopen, Controller.writeValue, Controller.write, e1]
          · intro e he
            rcases List.mem_append.mp he with h | h
            · exact q1 e h
            · simp at h
              subst h
              rfl
      · left
        refine ⟨?_, ?_, n1 ++ [Call.GetNext q (S.GetNext c1.repo q).1.1], ?_, ?_⟩
        · simp [hlen, a1]
        · simp [hlen, b1]
        · simp [hlen, e1]
        · intro e he
          rcases List.mem_append.mp he with h | h
          · exact q1 e h
          · simp at h
            subst h
            rfl

theorem getClose_step [DecidableEq κ] (S : Store σ κ) (c : Controller σ κ) (cmd : Command) :
    Frame c (c.getClose S cmd).2 ∨
      ∃ q, (c.getConsumer S cmd).1 = .ok q ∧ Release c (c.getClose S cmd).2 q := by
  have hf := getConsumer_frame S c cmd
  unfold Controller.getClose
  split
  · next e c1 hgc =>
    rw [hgc] at hf
    exact Or.inl hf
  · next q c1 hgc =>
    rw [hgc] at hf
    obtain ⟨a1, b1, n1, e1, q1⟩ := hf
    simp only at a1 b1 e1
    split
    · next hheld =>
      right
      refine ⟨q, by rw [hgc], by rwa [a1] at hheld, rfl, ?_, n1, [], ?_, q1, Or.inl rfl⟩
      · simp [Controller.UpdateOpenReads, Controller.setCurrentState, b1]
      · simp [Controller.UpdateOpenReads, Controller.setCurrentState, e1]
    · exact Or.inl ⟨a1, b1, n1, e1, q1⟩

theorem abort_step [DecidableEq κ] (S : Store σ κ) (c : Controller σ κ) (cmd : Command) :
    Frame c (c.abort S cmd).2 ∨
      ∃ q, (c.getConsumer S cmd).1 = .ok q ∧ Release c (c.abort S cmd).2 q := by
  have hf := getConsumer_frame S c cmd
  unfold Controller.abort
  split
  · next held hheld =>
    split
    · next e c1 hgc =>
      rw [hgc] at hf
      exact Or.inl hf
    · next q c1 hgc =>
      rw [hgc] at hf
      obtain ⟨a1, b1, n1, e1, q1⟩ := hf
      simp only at a1 b1 e1
      dsimp only
      split
      · next err herr =>
        left
        refine ⟨a1, b1, n1 ++ [Call.PutBack q held (some err)], ?_, ?_⟩
        · simp [e1, herr]
        · intro e he
          rcases List.mem_append.mp he with h | h
          · exact q1 e h
          · simp at h
            subst h
            rfl
      · next hok =>
        have hcv : c1.currentValue ≠ none := by rw [a1, hheld]; simp
        right
        refine ⟨q, by rw [hgc], by rw [hheld]; simp, ?_, ?_, n1, [Call.PutBack q held none], ?_,
          q1, Or.inr ⟨held, rfl⟩⟩
        · simp [hcv, Controller.setCurrentState]
        · simp [hcv, Controller.UpdateOpenReads, Controller.setCurrentState, b1]
        · simp [hcv, Controller.UpdateOpenReads, Controller.setCurrentState, e1, hok]
  · exact Or.inl (Frame.refl c)

theorem peek_step (S : Store σ κ) (c : Controller σ κ) (cmd : Command) :
    Frame c (c.peek S cmd).2 := by
  have hf := getConsumer_frame S c cmd
  unfold Controller.peek
  split
  · next e c1 hgc =>
    rw [hgc] at hf
    exact hf
  · next q c1 hgc =>
    rw [hgc] at hf
    obtain ⟨a1, b1, n1, e1, q1⟩ := hf
    simp only at a1 b1 e1
    dsimp only
    have hq : ∀ e ∈ n1 ++ [Call.Peek q], Call.quiet e = true := by
      intro e he
      rcases List.mem_append.mp he with h | h
      · exact q1 e h
      · simp at h
        subst h
        rfl
    split
    · exact ⟨by simp [Controller.writeValue, Controller.write, a1],
        by simp [Controller.writeValue, Controller.write, b1], n1 ++ [Call.Peek q],
        by simp [Controller.writeValue, Controller.write, e1], hq⟩
    · exact ⟨by simp [a1], by simp [b1], n1 ++ [Call.Peek q], by simp [e1], hq⟩

/-! ## Lemmas on the accounting -/

theorem deltaSum_snoc (calls : List (Call κ)) (e : Call κ) :
    deltaSum (calls ++ [e]) = match e with
      | .UpdateOpenReads _ d => deltaSum calls + d
      | _ => deltaSum calls := by
  simp only [deltaSum, List.foldl_append, List.foldl_cons, List.foldl_nil]

theorem deltaSum_append_quiet (calls new : List (Call κ))
    (h : ∀ e ∈ new, Call.quiet e = true) : deltaSum (calls ++ new) = deltaSum calls := by
  induction new using List.reverseRecOn with
  | nil => simp
  | append_singleton l e ih =>
    rw [← List.append_assoc, deltaSum_snoc]
    have hl : ∀ e ∈ l, Call.quiet e = true := fun x hx => h x (List.mem_append_left _ hx)
    have he : Call.quiet e = true := h e (by simp)
    cases e <;> simp_all [Call.quiet]

theorem lastOpenedFrom_snoc (calls : List (Call κ)) (e : Call κ) :
    lastOpenedFrom (calls ++ [e]) = match e with
      | .UpdateOpenReads q d => if d = 1 then some q else lastOpenedFrom calls
      | _ => lastOpenedFrom calls := by
  simp only [lastOpenedFrom, List.foldl_append, List.foldl_cons, List.foldl_nil]

theorem lastOpenedFrom_append_quiet (calls new : List (Call κ))
    (h : ∀ e ∈ new, Call.quiet e = true) :
    lastOpenedFrom (calls ++ new) = lastOpenedFrom calls := by
  induction new using List.reverseRecOn with
  | nil => simp
  | append_singleton l e ih =>
    rw [← List.append_assoc, lastOpenedFrom_snoc]
    have hl : ∀ e ∈ l, Call.quiet e = true := fun x hx => h x (List.mem_append_left _ hx)
    have he : Call.quiet e = true := h e (by simp)
    cases e <;> simp_all [Call.quiet]

theorem ledger_snoc (calls : List (Call κ)) (e : Call κ) :
    ledger (calls ++ [e]) = (ledger calls).step e := by
  simp [ledger, List.foldl_append]

theorem Ledger.step_quiet (l : Ledger) (e : Call κ) (h : Call.quiet e = true) :
    l.step e = l := by
  cases e with
  | PutBack q v err =>
    cases err with
    | none => simp [Call.quiet] at h
    | some x => rfl
  | UpdateOpenReads q d => simp [Call.quiet] at h
  | _ => rfl

theorem ledger_append_quiet (calls new : List (Call κ))
    (h : ∀ e ∈ new, Call.quiet e = true) : ledger (calls ++ new) = ledger calls := by
  induction new using List.reverseRecOn with
  | nil => simp
  | append_singleton l e ih =>
    rw [← List.append_assoc, ledger_snoc, Ledger.step_quiet _ _ (h e (by simp))]
    exact ih (fun x hx => h x (List.mem_append_left _ hx))

/-- Shared: the shape of one `Get` call on an input that parses: it keeps the
held item and the counters, or takes an item from idle, or releases the held
item on the consumer its command resolves to and then, for `close/open`,
possibly takes a new one. -/
theorem Get_step [DecidableEq κ] (S : Store σ κ) (c : Controller σ κ) (input : List String)
    (cmd : Command) (hparse : parseGetCommand input = some cmd) :
    ∃ r, Controller.Get S c input = some r ∧
      (Frame c r.2 ∨ (∃ q, Acquire c r.2 q) ∨
        ∃ q, (cmd.SubCommand = "close" ∨ cmd.SubCommand = "close/open" ∨
            cmd.SubCommand = "abort") ∧
          (c.getConsumer S cmd).1 = .ok q ∧
          ∃ c2, Release c c2 q ∧ (Frame c2 r.2 ∨ ∃ q2, Acquire c2 r.2 q2)) := by
  have key : Frame c (c.dispatch S cmd).2 ∨ (∃ q, Acquire c (c.dispatch S cmd).2 q) ∨
        ∃ q, (cmd.SubCommand = "close" ∨ cmd.SubCommand = "close/open" ∨
            cmd.SubCommand = "abort") ∧
          (c.getConsumer S cmd).1 = .ok q ∧
          ∃ c2, Release c c2 q ∧
            (Frame c2 (c.dispatch S cmd).2 ∨ ∃ q2, Acquire c2 (c.dispatch S cmd).2 q2) := by
    unfold Controller.dispatch
    split
    · rcases get_step S c cmd with h | h
      · exact Or.inl h
      · exact Or.inr (Or.inl h)
    split
    · next hsub =>
      rcases getClose_step S c cmd with h | ⟨q, hq, h⟩
      · exact Or.inl h
      · exact Or.inr (Or.inr ⟨q, Or.inl hsub, hq, _, h, Or.inl (Frame.refl _)⟩)
    split
    · next hsub =>
      have hcl := getClose_step S c cmd
      split
      · next c1 hc1 =>
        rw [hc1] at hcl
        simp only at hcl
        rcases hcl with h | ⟨q, hq, h⟩
        · rcases get_step S c1 cmd with g | ⟨q2, g⟩
          · exact Or.inl (h.trans g)
          · exact Or.inr (Or.inl ⟨q2, h.acquire g⟩)
        · exact Or.inr (Or.inr ⟨q, Or.inr (Or.inl hsub), hq, c1, h, get_step S c1 cmd⟩)
      · next e c1 hc1 =>
        rw [hc1] at hcl
        simp only at hcl
        rcases hcl with h | ⟨q, hq, h⟩
        · exact Or.inl h
        · exact Or.inr (Or.inr ⟨q, Or.inr (Or.inl hsub), hq, c1, h, Or.inl (Frame.refl _)⟩)
    split
    · next hsub =>
      rcases abort_step S c cmd with h | ⟨q, hq, h⟩
      · exact Or.inl h
      · exact Or.inr (Or.inr ⟨q, Or.inr (Or.inr hsub), hq, _, h, Or.inl (Frame.refl _)⟩)
    split
    · exact Or.inl (peek_step S c cmd)
    · exact Or.inl (Frame.refl c)
  simp only [Controller.Get, hparse]
  rcases hd : c.dispatch S cmd with ⟨e, c1⟩
  rw [hd] at key
  simp only at key
  cases e with
  | some err => exact ⟨_, rfl, key⟩
  | none =>
    refine ⟨_, rfl, ?_⟩
    have hw := write_frame c1 (goBytes "END\r\n")
    rcases key with h | ⟨q, h⟩ | ⟨q, hs, hq, c2, hr, h | ⟨q2, h⟩⟩
    · exact Or.inl (h.trans hw)
    · right; left
      obtain ⟨a, v, b, n, en, qn⟩ := h
      exact ⟨q, a, v, b, n, en, qn⟩
    · exact Or.inr (Or.inr ⟨q, hs, hq, c2, hr, Or.inl (h.trans hw)⟩)
    · right; right
      obtain ⟨a, v, b, n, en, qn⟩ := h
      exact ⟨q, hs, hq, c2, hr, Or.inr ⟨q2, a, v, b, n, en, qn⟩⟩

theorem creditedTo_frame {c c1 : Controller σ κ} (h : Frame c c1) :
    c1.creditedTo = c.creditedTo := by
  obtain ⟨a, -, n, en, qn⟩ := h
  simp only [Controller.creditedTo, a, en, lastOpenedFrom_append_quiet _ _ qn]

theorem creditedTo_acquire [DecidableEq κ] {c c1 : Controller σ κ} {q : κ}
    (h : Acquire c c1 q) : c1.creditedTo = some q := by
  obtain ⟨-, ⟨v, -, hv⟩, -, n, en, -⟩ := h
  rw [Controller.creditedTo, hv, en, lastOpenedFrom_snoc]
  simp

theorem creditedTo_idle {c : Controller σ κ} (h : c.currentValue = none) :
    c.creditedTo = none := by
  simp [Controller.creditedTo, h]

theorem heldFrom_idle {c : Controller σ κ} (h : c.currentValue = none) : c.heldFrom = none := by
  simp [Controller.heldFrom, h]

/-- Shared: one `Get` call and the controller it leaves. -/
theorem after_of_Get [DecidableEq κ] (S : Store σ κ) (c : Controller σ κ)
    (input : List String) (r : Option String × Controller σ κ)
    (h : Controller.Get S c input = some r) : c.after S input = r.2 := by
  simp [Controller.after, h]

/-! ## What the handlers write and count -/

theorem get_out [DecidableEq κ] (S : Store σ κ) (c : Controller σ κ) (cmd : Command) :
    (∃ err, (c.get S cmd).1 = some err ∧ classified err ∧ (c.get S cmd).2.rw = c.rw ∧
        (c.get S cmd).2.CmdGet = c.CmdGet) ∨
      ((c.get S cmd).1 = none ∧ (c.get S cmd).2.CmdGet = (c.CmdGet + 1) % 2 ^ 64 ∧
        ((c.get S cmd).2.rw = c.rw ∨
          ∃ v, v ≠ [] ∧ (c.get S cmd).2.rw = c.rw ++ valueBlock cmd.QueueName v)) := by
  have h1 := getConsumer_rw S c cmd
  have h2 := getConsumer_CmdGet S c cmd
  unfold Controller.get
  split
  · exact Or.inl ⟨_, rfl, Or.inl ⟨_, rfl⟩, rfl, rfl⟩
  · split
    · next e c1 hgc =>
      rw [hgc] at h1 h2
      exact Or.inl ⟨_, rfl, Or.inr (Or.inl ⟨_, rfl⟩), h1, h2⟩
    · next q c1 hgc =>
      rw [hgc] at h1 h2
      simp only at h1 h2
      right
      dsimp only
      by_cases hlen : 0 < (S.GetNext c1.repo q).1.1.length
      · refine ⟨rfl, ?_, Or.inr ⟨_, List.length_pos.mp hlen, ?_⟩⟩
        · split <;> simp [hlen, Controller.UpdateOpenReads, Controller.setCurrentState,
            Controller.writeValue, Controller.write, h2]
        · split <;> simp [hlen, Controller.UpdateOpenReads, Controller.setCurrentState,
            Controller.writeValue, Controller.write, h1, valueBlock]
      · exact ⟨rfl, by simp [hlen, h2], Or.inl (by simp [hlen, h1])⟩

theorem getClose_out [DecidableEq κ] (S : Store σ κ) (c : Controller σ κ) (cmd : Command) :
    ((∃ err, (c.getClose S cmd).1 = some err ∧ classified err) ∨ (c.getClose S cmd).1 = none) ∧
      (c.getClose S cmd).2.rw = c.rw ∧ (c.getClose S cmd).2.CmdGet = c.CmdGet := by
  have h1 := getConsumer_rw S c cmd
  have h2 := getConsumer_CmdGet S c cmd
  unfold Controller.getClose
  split
  · next e c1 hgc =>
    rw [hgc] at h1 h2
    exact ⟨Or.inl ⟨_, rfl, Or.inr (Or.inl ⟨_, rfl⟩)⟩, h1, h2⟩
  · next q c1 hgc =>
    rw [hgc] at h1 h2
    split
    · exact ⟨Or.inr rfl, h1, h2⟩
    · exact ⟨Or.inr rfl, h1, h2⟩

theorem abort_out [DecidableEq κ] (S : Store σ κ) (c : Controller σ κ) (cmd : Command) :
    ((∃ err, (c.abort S cmd).1 = some err ∧ classified err) ∨ (c.abort S cmd).1 = none) ∧
      (c.abort S cmd).2.rw = c.rw ∧ (c.abort S cmd).2.CmdGet = c.CmdGet := by
  have h1 := getConsumer_rw S c cmd
  have h2 := getConsumer_CmdGet S c cmd
  unfold Controller.abort
  split
  · split
    · next e c1 hgc =>
      rw [hgc] at h1 h2
      exact ⟨Or.inl ⟨_, rfl, Or.inr (Or.inl ⟨_, rfl⟩)⟩, h1, h2⟩
    · next q c1 hgc =>
      rw [hgc] at h1 h2
      dsimp only
      split
      · exact ⟨Or.inl ⟨_, rfl, Or.inr (Or.inl ⟨_, rfl⟩)⟩, h1, h2⟩
      · split
        · exact ⟨Or.inr rfl, h1, h2⟩
        · exact ⟨Or.inr rfl, h1, h2⟩
  · exact ⟨Or.inr rfl, rfl, rfl⟩

theorem peek_out (S : Store σ κ) (c : Controller σ κ) (cmd : Command) :
    (∃ err, (c.peek S cmd).1 = some err ∧ classified err ∧ (c.peek S cmd).2.rw = c.rw ∧
        (c.peek S cmd).2.CmdGet = c.CmdGet) ∨
      ((c.peek S cmd).1 = none ∧ (c.peek S cmd).2.CmdGet = (c.CmdGet + 1) % 2 ^ 64 ∧
        ((c.peek S cmd).2.rw = c.rw ∨
          ∃ v, v ≠ [] ∧ (c.peek S cmd).2.rw = c.rw ++ valueBlock cmd.QueueName v)) := by
  have h1 := getConsumer_rw S c cmd
  have h2 := getConsumer_CmdGet S c cmd
  unfold Controller.peek
  split
  · next e c1 hgc =>
    rw [hgc] at h1 h2
    exact Or.inl ⟨_, rfl, Or.inr (Or.inl ⟨_, rfl⟩), h1, h2⟩
  · next q c1 hgc =>
    rw [hgc] at h1 h2
    simp only at h1 h2
    right
    dsimp only
    by_cases hlen : 0 < (S.Peek c1.repo q).1.1.length
    · exact ⟨rfl, by simp [hlen, Controller.writeValue, Controller.write, h2],
        Or.inr ⟨_, List.length_pos.mp hlen,
          by simp [hlen, Controller.writeValue, Controller.write, h1, valueBlock]⟩⟩
    · exact ⟨rfl, by simp [hlen, h2], Or.inl (by simp [hlen, h1])⟩

/-! ## Resolution depends on the names and on the store state only -/

theorem getConsumer_congr (S : Store σ κ) (c : Controller σ κ) (cmd1 cmd2 : Command)
    (hq : cmd1.QueueName = cmd2.QueueName) (hg : cmd1.ConsumerGroup = cmd2.ConsumerGroup) :
    c.getConsumer S cmd1 = c.getConsumer S cmd2 := by
  unfold Controller.getConsumer
  rw [hq, hg]

/-- Shared: on an idle connection, when resolving the consumer a second time
gives the same result and leaves the store as the first resolution left it,
`close/open` and `open` on the same queue and group agree on the returned
error, the output, the held item, the counters and the store. -/
theorem dispatch_closeOpen_eq_open [DecidableEq κ] (S : Store σ κ) (c : Controller σ κ)
    (cmdO cmdCO : Command)
    (hidle : c.currentValue = none)
    (hO : cmdO.SubCommand = "open") (hCO : cmdCO.SubCommand = "close/open")
    (hq : cmdCO.QueueName = cmdO.QueueName) (hg : cmdCO.ConsumerGroup = cmdO.ConsumerGroup)
    (hstable : ((c.getConsumer S cmdO).2.getConsumer S cmdO).1 = (c.getConsumer S cmdO).1 ∧
      ((c.getConsumer S cmdO).2.getConsumer S cmdO).2.repo = (c.getConsumer S cmdO).2.repo) :
    (c.dispatch S cmdCO).1 = (c.dispatch S cmdO).1 ∧
      (c.dispatch S cmdCO).2.rw = (c.dispatch S cmdO).2.rw ∧
      (c.dispatch S cmdCO).2.currentValue = (c.dispatch S cmdO).2.currentValue ∧
      (c.dispatch S cmdCO).2.currentCommand.map (fun x => (x.QueueName, x.ConsumerGroup))
        = (c.dispatch S cmdO).2.currentCommand.map (fun x => (x.QueueName, x.ConsumerGroup)) ∧
      (c.dispatch S cmdCO).2.openReads = (c.dispatch S cmdO).2.openReads ∧
      (c.dispatch S cmdCO).2.repo = (c.dispatch S cmdO).2.repo ∧
      (c.dispatch S cmdCO).2.CmdGet = (c.dispatch S cmdO).2.CmdGet := by
  have hc1 := getConsumer_congr S c cmdCO cmdO hq hg
  have hc2 := getConsumer_congr S (c.getConsumer S cmdO).2 cmdCO cmdO hq hg
  have e1 := getConsumer_currentValue S c cmdO
  have e2 := getConsumer_currentCommand S c cmdO
  have e3 := getConsumer_rw S c cmdO
  have e4 := getConsumer_CmdGet S c cmdO
  have e5 := getConsumer_openReads S c cmdO
  have f1 := getConsumer_currentValue S (c.getConsumer S cmdO).2 cmdO
  have f2 := getConsumer_currentCommand S (c.getConsumer S cmdO).2 cmdO
  have f3 := getConsumer_rw S (c.getConsumer S cmdO).2 cmdO
  have f4 := getConsumer_CmdGet S (c.getConsumer S cmdO).2 cmdO
  have f5 := getConsumer_openReads S (c.getConsumer S cmdO).2 cmdO
  rcases hgc : c.getConsumer S cmdO with ⟨r, c1⟩
  rw [hgc] at hc1 hc2 hstable e1 e2 e3 e4 e5 f1 f2 f3 f4 f5
  simp only at hc2 hstable e1 e2 e3 e4 e5 f1 f2 f3 f4 f5
  have hc1v : c1.currentValue = none := by rw [e1, hidle]
  cases r with
  | error err =>
    simp [Controller.dispatch, hO, hCO, Controller.get, Controller.getClose, hidle, hgc, hc1]
  | ok q =>
    rcases hgc2 : c1.getConsumer S cmdO with ⟨r2, c2⟩
    rw [hgc2] at hc2 hstable f1 f2 f3 f4 f5
    simp only at hstable f1 f2 f3 f4 f5
    obtain ⟨hs1, hs2⟩ := hstable
    subst hs1
    by_cases hlen : 0 < (S.GetNext c1.repo q).1.1.length
    · simp [Controller.dispatch, hO, hCO, Controller.get, Controller.getClose, hidle, hgc, hc1,
        hc1v, hgc2, hc2, hs2, hlen, Controller.writeValue, Controller.write,
        Controller.UpdateOpenReads, Controller.setCurrentState, hq, hg, f3, f4, f5]
    · simp [Controller.dispatch, hO, hCO, Controller.get, Controller.getClose, hidle, hgc, hc1,
        hc1v, hgc2, hc2, hs2, hlen, f1, f2, f3, f4, f5]

/-! ## The parser on the documented grammar -/

section ParserLemmas

open strings timeoutRegexp

theorem matchAt_none (l : List Char) (h : ∀ b, l ≠ 't' :: '=' :: b) : matchAt l = none := by
  unfold matchAt
  split
  · next d rest => exact absurd rfl (h (d :: rest))
  · rfl

theorem matchAt_none_of_head (x : Char) (l : List Char)
    (h : ¬(x = 't' ∧ l.head? = some '=')) : matchAt (x :: l) = none := by
  apply matchAt_none
  intro b hb
  apply h
  simp only [List.cons.injEq] at hb
  obtain ⟨h1, h2⟩ := hb
  subst h1 h2
  simp

theorem clean_cons (x : Char) (l : List Char) :
    containsL (x :: l) ['t', '='] = false ↔
      ¬(x = 't' ∧ l.head? = some '=') ∧ containsL l ['t', '='] = false := by
  cases l with
  | nil => simp [containsL, List.isPrefixOf]
  | cons y l =>
    simp only [containsL, List.isPrefixOf, Bool.and_true, Bool.or_eq_false_iff, List.head?_cons,
      Option.some.injEq]
    constructor
    · rintro ⟨h1, h2⟩
      refine ⟨?_, ?_⟩
      · rintro ⟨rfl, rfl⟩
        simp at h1
      · simpa [containsL, List.isPrefixOf] using h2
    · rintro ⟨h1, h2⟩
      refine ⟨?_, ?_⟩
      · by_contra hc
        simp at hc
        exact h1 ⟨hc.1.symm, hc.2.symm⟩
      · simpa [containsL, List.isPrefixOf] using h2

theorem deleteAll_zero_cons (c : Char) (rest : List Char) :
    deleteAll 0 (c :: rest) = match matchAt (c :: rest) with
      | some (n + 1) => deleteAll n rest
      | _ => c :: deleteAll 0 rest := by
  rfl

theorem drop_past_sep (ds post : List Char) (x : Char) :
    (ds ++ x :: post).drop (ds.length + 1) = post := by
  induction ds with
  | nil => rfl
  | cons d ds ih => simp

theorem deleteAll_clean_append (pre rest : List Char)
    (hpre : containsL pre ['t', '='] = false) (hrest : rest.head? ≠ some '=') :
    deleteAll 0 (pre ++ rest) = pre ++ deleteAll 0 rest := by
  induction pre with
  | nil => rfl
  | cons x p ih =>
    obtain ⟨hx, hp⟩ := (clean_cons x p).mp hpre
    have hm : matchAt (x :: (p ++ rest)) = none := by
      apply matchAt_none_of_head
      rintro ⟨rfl, hh⟩
      cases p with
      | nil => exact hrest (by simpa using hh)
      | cons y p => exact hx ⟨rfl, by simpa using hh⟩
    rw [List.cons_append, deleteAll_zero_cons, hm, ih hp]
    rfl

theorem deleteAll_clean (l : List Char) (h : containsL l ['t', '='] = false) :
    deleteAll 0 l = l := by
  have := deleteAll_clean_append l [] h (by simp)
  simpa [deleteAll] using this

theorem containsL_marker (pre b : List Char) :
    containsL (pre ++ 't' :: '=' :: b) ['t', '='] = true := by
  induction pre with
  | nil => simp [containsL, List.isPrefixOf]
  | cons x p ih => simp [containsL, ih]

theorem clean_append_sep (a b : List Char) (sep : Char)
    (ha : containsL a ['t', '='] = false) (hb : containsL b ['t', '='] = false)
    (h1 : sep ≠ 't') (h2 : sep ≠ '=') :
    containsL (a ++ sep :: b) ['t', '='] = false := by
  induction a with
  | nil =>
    rw [List.nil_append, clean_cons]
    exact ⟨fun h => h1 h.1, hb⟩
  | cons x p ih =>
    obtain ⟨hx, hp⟩ := (clean_cons x p).mp ha
    rw [List.cons_append, clean_cons]
    refine ⟨?_, ih hp⟩
    rintro ⟨rfl, hh⟩
    cases p with
    | nil => exact h2 (by simpa using hh)
    | cons y p => exact hx ⟨rfl, by simpa using hh⟩

theorem deleteAll_drop (k : Nat) (l : List Char) :
    deleteAll k l = deleteAll 0 (l.drop k) := by
  induction k generalizing l with
  | zero => simp
  | succ k ih =>
    cases l with
    | nil => simp [deleteAll]
    | cons x l => simp [deleteAll, ih]

theorem takeWhile_digits (ds post : List Char) (h : ∀ c ∈ ds, c.isDigit = true) :
    (ds ++ '/' :: post).takeWhile Char.isDigit = ds ∧
      (ds ++ '/' :: post).dropWhile Char.isDigit = '/' :: post := by
  induction ds with
  | nil =>
    have : Char.isDigit '/' = false := by decide
    simp [List.takeWhile, List.dropWhile, this]
  | cons d ds ih =>
    have hd : d.isDigit = true := h d (by simp)
    obtain ⟨i1, i2⟩ := ih (fun c hc => h c (List.mem_cons_of_mem _ hc))
    simp [List.takeWhile, List.dropWhile, hd, i1, i2]

/-- The timeout marker `t=<digits>/` at the head of a list is deleted whole. -/
theorem deleteAll_marker (n post : List Char) (hn : n ≠ [])
    (hd : ∀ c ∈ n, c.isDigit = true) :
    deleteAll 0 ('t' :: '=' :: (n ++ '/' :: post)) = deleteAll 0 post := by
  cases n with
  | nil => exact absurd rfl hn
  | cons d ds =>
    have hd0 : d.isDigit = true := hd d (by simp)
    obtain ⟨i1, i2⟩ := takeWhile_digits ds post (fun c hc => hd c (List.mem_cons_of_mem _ hc))
    have hm : matchAt ('t' :: '=' :: d :: (ds ++ '/' :: post)) = some (3 + ds.length + 1) := by
      simp [matchAt, hd0, i1, i2]
    rw [List.cons_append, deleteAll_zero_cons, hm]
    show deleteAll (3 + ds.length) ('=' :: d :: (ds ++ '/' :: post)) = deleteAll 0 post
    rw [deleteAll_drop]
    congr 1
    rw [show 3 + ds.length = (ds.length + 1) + 1 + 1 by omega, List.drop_succ_cons,
      List.drop_succ_cons]
    exact drop_past_sep ds post '/'

theorem cut_of_not_mem (sep : Char) (a b : List Char) (h : sep ∉ a) :
    cut sep (a ++ sep :: b) = some (a, b) := by
  induction a with
  | nil => simp [cut]
  | cons x a ih =>
    have hx : x ≠ sep := fun e => h (by simp [e])
    have ha : sep ∉ a := fun e => h (List.mem_cons_of_mem _ e)
    simp [cut, hx, ih ha]

theorem cut_none_of_not_mem (sep : Char) (a : List Char) (h : sep ∉ a) : cut sep a = none := by
  induction a with
  | nil => rfl
  | cons x a ih =>
    have hx : x ≠ sep := fun e => h (by simp [e])
    have ha : sep ∉ a := fun e => h (List.mem_cons_of_mem _ e)
    simp [cut, hx, ih ha]

theorem data_slash_append (qs s : String) :
    (qs ++ "/" ++ s).data = qs.data ++ '/' :: s.data := by
  simp [String.data_append]

theorem Contains_eq_false_singleton (s : String) (sep : Char)
    (h : strings.Contains s (String.mk [sep]) = false) : sep ∉ s.data := by
  intro hm
  have := (containsL_singleton sep s.data).mpr hm
  simp [strings.Contains] at h
  rw [h] at this
  cases this

/-- Shared: a queue spec without `/` and without `t=`, followed by `/` and a
subcommand that has no `t=` and no leading or trailing `/`, parses to the
command of the bare spec with that subcommand. -/
theorem parse_with_subcommand (name qs s : String) (rest : List String)
    (hslash : strings.Contains qs "/" = false)
    (hclean : strings.Contains qs "t=" = false)
    (hs : strings.Contains s "t=" = false)
    (htrim : strings.Trim s "/" = s) :
    parseGetCommand (name :: (qs ++ "/" ++ s) :: rest)
      = (parseGetCommand (name :: qs :: rest)).map (fun c => { c with SubCommand := s }) := by
  have hmem : '/' ∉ qs.data := Contains_eq_false_singleton qs '/' hslash
  have hspec : strings.Contains (qs ++ "/" ++ s) "t=" = false := by
    simp only [strings.Contains, data_slash_append]
    exact clean_append_sep qs.data s.data '/' hclean hs (by decide) (by decide)
  have hhas : strings.Contains (qs ++ "/" ++ s) "/" = true := by
    simp only [strings.Contains, data_slash_append]
    exact (containsL_singleton '/' _).mpr (by simp)
  have hsplit : strings.SplitN (qs ++ "/" ++ s) '/' 2 = [qs, s] := by
    simp [strings.SplitN, data_slash_append, strings.splitNL, cut_of_not_mem '/' _ _ hmem]
  simp only [parseGetCommand, List.getElem?_cons_zero, List.getElem?_cons_succ,
    Option.bind_eq_bind, Option.some_bind, Option.pure_def, hspec, hclean, hhas, hslash,
    hsplit, htrim, Bool.false_eq_true, if_false, if_true]
  by_cases hco : strings.Contains qs ":" = true
  · obtain ⟨u0, u1, r2, hu⟩ := SplitN_two_pieces qs ':' 1 hco
    simp [hco, hu]
  · simp [hco]

theorem data_colon_append (q g : String) :
    (q ++ ":" ++ g).data = q.data ++ ':' :: g.data := by
  simp [String.data_append]

/-- Shared: a bare queue name parses to itself, with no subcommand and no
consumer group. -/
theorem parse_bare (name q : String) (rest : List String)
    (h1 : strings.Contains q "/" = false) (h2 : strings.Contains q ":" = false)
    (h3 : strings.Contains q "t=" = false) :
    parseGetCommand (name :: q :: rest) = some ⟨name, q, "", ""⟩ := by
  simp [parseGetCommand, h1, h2, h3]

/-- Shared: `q:g` parses to the queue `q` and the consumer group `g`. -/
theorem parse_bare_group (name q g : String) (rest : List String)
    (hq1 : strings.Contains q "/" = false) (hq2 : strings.Contains q ":" = false)
    (hq3 : strings.Contains q "t=" = false)
    (hg1 : strings.Contains g "/" = false) (hg2 : strings.Contains g ":" = false)
    (hg3 : strings.Contains g "t=" = false) :
    parseGetCommand (name :: (q ++ ":" ++ g) :: rest) = some ⟨name, q, "", g⟩ := by
  have hqm : ':' ∉ q.data := Contains_eq_false_singleton q ':' hq2
  have hgm : ':' ∉ g.data := Contains_eq_false_singleton g ':' hg2
  have hqs : '/' ∉ q.data := Contains_eq_false_singleton q '/' hq1
  have hgs : '/' ∉ g.data := Contains_eq_false_singleton g '/' hg1
  have hclean : strings.Contains (q ++ ":" ++ g) "t=" = false := by
    simp only [strings.Contains, data_colon_append]
    exact clean_append_sep q.data g.data ':' hq3 hg3 (by decide) (by decide)
  have hslash : strings.Contains (q ++ ":" ++ g) "/" = false := by
    cases hc : strings.Contains (q ++ ":" ++ g) "/" with
    | false => rfl
    | true =>
      have := (containsL_singleton '/' _).mp hc
      rw [data_colon_append] at this
      simp [hqs, hgs] at this
  have hcolon : strings.Contains (q ++ ":" ++ g) ":" = true := by
    simp only [strings.Contains, data_colon_append]
    exact (containsL_singleton ':' _).mpr (by simp)
  have hsplit : strings.SplitN (q ++ ":" ++ g) ':' 3 = [q, g] := by
    simp [strings.SplitN, data_colon_append, strings.splitNL, cut_of_not_mem ':' _ _ hqm,
      cut_none_of_not_mem ':' _ hgm]
  simp [parseGetCommand, hclean, hslash, hcolon, hsplit]

/-- Shared: the timeout marker `t=<digits>/` placed right after the `/` that
follows the queue spec does not change the parsed command. -/
theorem parse_with_marker (name qs n s : String) (rest : List String)
    (hclean : strings.Contains qs "t=" = false)
    (hs : strings.Contains s "t=" = false)
    (hn1 : n.data ≠ []) (hn2 : ∀ c ∈ n.data, c.isDigit = true) :
    parseGetCommand (name :: (qs ++ "/t=" ++ n ++ "/" ++ s) :: rest)
      = parseGetCommand (name :: (qs ++ "/" ++ s) :: rest) := by
  have hdata : (qs ++ "/t=" ++ n ++ "/" ++ s).data
      = (qs.data ++ ['/']) ++ 't' :: '=' :: (n.data ++ '/' :: s.data) := by
    simp [String.data_append]
  have hguard : strings.Contains (qs ++ "/t=" ++ n ++ "/" ++ s) "t=" = true := by
    simp only [strings.Contains, hdata]
    exact containsL_marker _ _
  have hpre : containsL (qs.data ++ ['/']) ['t', '='] = false :=
    clean_append_sep qs.data [] '/' hclean (by rfl) (by decide) (by decide)
  have hstrip : timeoutRegexp.ReplaceAllString (qs ++ "/t=" ++ n ++ "/" ++ s)
      = qs ++ "/" ++ s := by
    simp only [timeoutRegexp.ReplaceAllString, hdata]
    rw [deleteAll_clean_append _ _ hpre (by simp), deleteAll_marker _ _ hn1 hn2,
      deleteAll_clean _ hs]
    apply String.ext
    simp [String.data_append]
  have hclean2 : strings.Contains (qs ++ "/" ++ s) "t=" = false := by
    simp only [strings.Contains, data_slash_append]
    exact clean_append_sep qs.data s.data '/' hclean hs (by decide) (by decide)
  have hhas : strings.Contains (qs ++ "/" ++ s) "/" = true := by
    simp only [strings.Contains, data_slash_append]
    exact (containsL_singleton '/' _).mpr (by simp)
  simp only [parseGetCommand, List.getElem?_cons_zero, List.getElem?_cons_succ,
    Option.bind_eq_bind, Option.some_bind, Option.pure_def, hguard, hstrip, hclean2, hhas,
    Bool.false_eq_true, if_false, if_true]

end ParserLemmas

/-! ## The held item and the last GetNext call -/

theorem lastGetNext_snoc (calls : List (Call κ)) (e : Call κ) :
    lastGetNext (calls ++ [e]) = match e with
      | .GetNext q value => some (q, value)
      | _ => lastGetNext calls := by
  simp only [lastGetNext, List.foldl_append, List.foldl_cons, List.foldl_nil]

theorem lastGetNext_append_other (calls new : List (Call κ))
    (h : ∀ e ∈ new, Call.isGetNext e = false) :
    lastGetNext (calls ++ new) = lastGetNext calls := by
  induction new using List.reverseRecOn with
  | nil => simp
  | append_singleton l e ih =>
    rw [← List.append_assoc, lastGetNext_snoc]
    have hl : ∀ e ∈ l, Call.isGetNext e = false := fun x hx => h x (List.mem_append_left _ hx)
    have he : Call.isGetNext e = false := h e (by simp)
    cases e <;> simp_all [Call.isGetNext]

/-- Resolution changes neither the last GetNext call nor the last +1 delta of
the log. -/
theorem getConsumer_log (S : Store σ κ) (c : Controller σ κ) (cmd : Command) :
    lastGetNext (c.getConsumer S cmd).2.calls = lastGetNext c.calls ∧
      lastOpenedFrom (c.getConsumer S cmd).2.calls = lastOpenedFrom c.calls := by
  obtain ⟨new, hnew, hall⟩ := getConsumer_calls S c cmd
  rw [hnew]
  constructor
  · apply lastGetNext_append_other
    intro e he
    have := hall e he
    cases e <;> simp_all [Call.isLookup, Call.isGetNext]
  · apply lastOpenedFrom_append_quiet
    intro e he
    have := hall e he
    cases e <;> simp_all [Call.isLookup, Call.quiet]

theorem getConsumer_synced (S : Store σ κ) (c : Controller σ κ) (cmd : Command)
    (h : Synced c) : Synced (c.getConsumer S cmd).2 := by
  intro held hh
  rw [getConsumer_currentValue] at hh
  obtain ⟨q, h1, h2⟩ := h held hh
  obtain ⟨g1, g2⟩ := getConsumer_log S c cmd
  exact ⟨q, by rw [g1, h1], by rw [g2, h2]⟩

theorem synced_of_idle {c : Controller σ κ} (h : c.currentValue = none) : Synced c := by
  intro held hh
  rw [h] at hh
  cases hh

theorem write_synced {c : Controller σ κ} (b : Bytes) (h : Synced c) : Synced (c.write b) := h

theorem get_synced [DecidableEq κ] (S : Store σ κ) (c : Controller σ κ) (cmd : Command)
    (h : Synced c) : Synced (c.get S cmd).2 := by
  have hs := getConsumer_synced S c cmd h
  have hv := getConsumer_currentValue S c cmd
  unfold Controller.get
  split
  · exact h
  · next hidle =>
    have hidle : c.currentValue = none := by simpa using hidle
    split
    · next e c1 hgc =>
      rw [hgc] at hs
      exact hs
    · next q c1 hgc =>
      rw [hgc] at hv
      simp only at hv
      have hc1 : c1.currentValue = none := by rw [hv, hidle]
      dsimp only
      by_cases hlen : 0 < (S.GetNext c1.repo q).1.1.length
      · by_cases hopen : strings.Contains cmd.SubCommand "open" = true
        · intro held hh
          simp [hlen, hopen, Controller.UpdateOpenReads, Controller.setCurrentState] at hh
          subst hh
          refine ⟨q, ?_, ?_⟩
          · simp [hlen, hopen, Controller.UpdateOpenReads, Controller.setCurrentState,
              Controller.writeValue, Controller.write, lastGetNext_snoc,
              ← List.append_assoc]
          · simp [hlen, hopen, Controller.UpdateOpenReads, Controller.setCurrentState,
              Controller.writeValue, Controller.write, lastOpenedFrom_snoc,
              ← List.append_assoc]
        · apply synced_of_idle
          simp [hlen, hopen, Controller.writeValue, Controller.write, hc1]
      · apply synced_of_idle
        simp [hlen, hc1]

theorem getClose_synced [DecidableEq κ] (S : Store σ κ) (c : Controller σ κ) (cmd : Command)
    (h : Synced c) : Synced (c.getClose S cmd).2 := by
  have hs := getConsumer_synced S c cmd h
  unfold Controller.getClose
  split
  · next e c1 hgc =>
    rw [hgc] at hs
    exact hs
  · next q c1 hgc =>
    rw [hgc] at hs
    split
    · exact synced_of_idle rfl
    · exact hs

theorem abort_synced [DecidableEq κ] (S : Store σ κ) (c : Controller σ κ) (cmd : Command)
    (h : Synced c) : Synced (c.abort S cmd).2 := by
  have hs := getConsumer_synced S c cmd h
  unfold Controller.abort
  split
  · split
    · next e c1 hgc =>
      rw [hgc] at hs
      exact hs
    · next q c1 hgc =>
      rw [hgc] at hs
      simp only at hs
      dsimp only
      split
      · next err herr =>
        intro held hh
        obtain ⟨k, h1, h2⟩ := hs held hh
        exact ⟨k, by simp [lastGetNext_snoc, h1], by simp [lastOpenedFrom_snoc, h2]⟩
      · split
        · exact synced_of_idle rfl
        · next hn =>
          apply synced_of_idle
          simpa using hn
  · exact h

theorem peek_synced (S : Store σ κ) (c : Controller σ κ) (cmd : Command)
    (h : Synced c) : Synced (c.peek S cmd).2 := by
  have hs := getConsumer_synced S c cmd h
  unfold Controller.peek
  split
  · next e c1 hgc =>
    rw [hgc] at hs
    exact hs
  · next q c1 hgc =>
    rw [hgc] at hs
    simp only at hs
    dsimp only
    intro held hh
    have hh2 : c1.currentValue = some held := by
      split at hh
      · simpa [Controller.writeValue, Controller.write] using hh
      · simpa using hh
    obtain ⟨k, h1, h2⟩ := hs held hh2
    refine ⟨k, ?_, ?_⟩
    · split <;> simp [Controller.writeValue, Controller.write, lastGetNext_snoc, h1]
    · split <;> simp [Controller.writeValue, Controller.write, lastOpenedFrom_snoc, h2]

/-- Shared: every `Get` call keeps the log in agreement with the held item. -/
theorem Get_synced [DecidableEq κ] (S : Store σ κ) (c : Controller σ κ) (input : List String)
    (r : Option String × Controller σ κ) (hget : Controller.Get S c input = some r)
    (h : Synced c) : Synced r.2 := by
  unfold Controller.Get at hget
  split at hget
  · cases hget
  · next cmd hparse =>
    have key : Synced (c.dispatch S cmd).2 := by
      unfold Controller.dispatch
      split
      · exact get_synced S c cmd h
      split
      · exact getClose_synced S c cmd h
      split
      · have hcl := getClose_synced S c cmd h
        split
        · next c1 hc1 =>
          rw [hc1] at hcl
          exact get_synced S c1 cmd hcl
        · next e c1 hc1 =>
          rw [hc1] at hcl
          exact hcl
      split
      · exact abort_synced S c cmd h
      split
      · exact peek_synced S c cmd h
      · exact h
    split at hget
    · next e c1 hd =>
      cases hget
      rw [hd] at key
      exact key
    · next c1 hd =>
      cases hget
      rw [hd] at key
      exact write_synced _ key

/-- Shared: when the log agrees with the held item, the consumer the item was
obtained from is the consumer that received the last +1 delta. -/
theorem heldFrom_eq_creditedTo [DecidableEq κ] {c : Controller σ κ} (h : Synced c) :
    c.heldFrom = c.creditedTo := by
  cases hv : c.currentValue with
  | none => simp [Controller.heldFrom, Controller.creditedTo, hv]
  | some held =>
    obtain ⟨q, h1, h2⟩ := h held hv
    simp [Controller.heldFrom, Controller.creditedTo, hv, h1, h2]

end Lemmas

/-! ## The claims -/

section Claims

variable {σ κ : Type} [DecidableEq κ]

/-- C1: on a connection that holds an item, a GET whose parsed subcommand is
"" or "open" returns the client error "Close current item first" and leaves
the whole controller as it was: the held item, its command context, the
output, the store state, every counter and the log of store operations (so no
queue lookup and no GetNext took place). -/
theorem get_while_holding_is_client_error (S : Store σ κ) (c : Controller σ κ)
    (input : List String) (cmd : Command)
    (hheld : c.currentValue ≠ none)
    (hparse : parseGetCommand input = some cmd)
    (hsub : cmd.SubCommand = "" ∨ cmd.SubCommand = "open") :
    Controller.Get S c input = some (some "CLIENT_ERROR Close current item first", c) := by
  simp [Controller.Get, hparse, Controller.dispatch, hsub, Controller.get, hheld]

/-- Witness of C1: a connection holding "hello" processes `GET q/open`. -/
theorem get_while_holding_is_client_error_witness :
    Controller.Get memStore (holdingController ⟨[("q", [])], none⟩ openQ hello)
        ["GET", "q/open"]
      = some (some "CLIENT_ERROR Close current item first",
          holdingController ⟨[("q", [])], none⟩ openQ hello) :=
  get_while_holding_is_client_error memStore _ ["GET", "q/open"] openQ
    (by decide) (by decide) (by decide)

/-- C2 as stated fails: on an idle connection `GET q` (empty subcommand) over
a queue whose GetNext returns "hello" succeeds and emits the item, but the
connection holds nothing afterwards and the open-reads counter of `q` is
still 0. -/
theorem plain_get_does_not_open :
    parseGetCommand ["GET", "q"] = some ⟨"GET", "q", "", ""⟩ ∧
    (memStore.GetNext (⟨[("q", [hello])], none⟩ : MemState) "q").1 = (hello, true) ∧
    (Controller.Get memStore (freshController ⟨[("q", [hello])], none⟩) ["GET", "q"]).map
        (fun r => (r.1, r.2.currentValue, r.2.currentCommand, r.2.openReads "q", r.2.rw))
      = some (none, none, none, 0, goBytes "VALUE q 0 5\r\nhello\r\nEND\r\n") := by
  decide

/-- C2, amended: on an idle connection, for a GET whose parsed subcommand is
"open" or "" and whose resolved consumer's GetNext returns a non-empty item,
Get succeeds and emits the item as one VALUE block followed by END. With
"open" the connection then holds exactly that item together with the parsed
command, the open-reads counter of that consumer is one more than before and
every other counter is unchanged. With "" (plain `GET q`) the connection
stays idle with its command context as before and no counter changes. -/
theorem open_holds_item_and_counts (S : Store σ κ) (c : Controller σ κ)
    (input : List String) (cmd : Command) (q : κ)
    (hidle : c.currentValue = none)
    (hparse : parseGetCommand input = some cmd)
    (hsub : cmd.SubCommand = "" ∨ cmd.SubCommand = "open")
    (hres : (c.getConsumer S cmd).1 = .ok q)
    (hitem : (S.GetNext (c.getConsumer S cmd).2.repo q).1.1 ≠ []) :
    ∃ c1, Controller.Get S c input = some (none, c1) ∧
      c1.rw = c.rw
        ++ valueBlock cmd.QueueName (S.GetNext (c.getConsumer S cmd).2.repo q).1.1
        ++ goBytes "END\r\n" ∧
      (cmd.SubCommand = "open" →
        c1.currentValue = some (S.GetNext (c.getConsumer S cmd).2.repo q).1.1 ∧
        c1.currentCommand = some cmd ∧
        c1.openReads q = c.openReads q + 1 ∧
        ∀ k, k ≠ q → c1.openReads k = c.openReads k) ∧
      (cmd.SubCommand = "" →
        c1.currentValue = none ∧
        c1.currentCommand = c.currentCommand ∧
        c1.openReads = c.openReads) := by
  have hlen : 0 < ((S.GetNext (c.getConsumer S cmd).2.repo q).1.1).length :=
    List.length_pos.mpr hitem
  have h1 := getConsumer_rw S c cmd
  have h2 := getConsumer_currentValue S c cmd
  have h3 := getConsumer_currentCommand S c cmd
  have h4 := getConsumer_openReads S c cmd
  rcases hgc : c.getConsumer S cmd with ⟨r, c0⟩
  rw [hgc] at hres hitem hlen h1 h2 h3 h4
  simp only at hres hitem hlen h1 h2 h3 h4
  subst hres
  rcases hsub with hs | hs
  · refine ⟨_, by simp [Controller.Get, hparse, Controller.dispatch, hs, Controller.get, hidle,
      hgc, hlen]; rfl, ?_, ?_, ?_⟩
    · simp [Controller.write, Controller.writeValue, valueBlock, h1]
    · intro h
      rw [hs] at h
      exact absurd h (by decide)
    · intro _
      simp [Controller.write, Controller.writeValue, h2, h3, h4, hidle]
  · refine ⟨_, by simp [Controller.Get, hparse, Controller.dispatch, hs, Controller.get, hidle,
      hgc, hlen]; rfl, ?_, ?_, ?_⟩
    · simp [Controller.write, Controller.writeValue, Controller.UpdateOpenReads,
        Controller.setCurrentState, valueBlock, h1]
    · intro _
      refine ⟨?_, ?_, ?_, ?_⟩
      · simp [Controller.write, Controller.UpdateOpenReads, Controller.setCurrentState]
      · simp [Controller.write, Controller.UpdateOpenReads, Controller.setCurrentState, hs]
      · simp [Controller.write, Controller.UpdateOpenReads, Controller.setCurrentState,
          Controller.writeValue, h4]
      · intro k hk
        simp [Controller.write, Controller.UpdateOpenReads, Controller.setCurrentState,
          Controller.writeValue, h4, Function.update, hk]
    · intro h
      rw [hs] at h
      exact absurd h (by decide)

/-- Witness of the amended C2: `GET q/open` and plain `GET q` on a fresh
connection over a queue that holds "hello". -/
theorem open_holds_item_and_counts_witness :
    (∃ c1, Controller.Get memStore (freshController helloStore) ["GET", "q/open"]
        = some (none, c1) ∧
      c1.rw = (freshController helloStore).rw ++ valueBlock "q" hello ++ goBytes "END\r\n" ∧
      c1.currentValue = some hello ∧ c1.currentCommand = some openQ ∧
      c1.openReads "q" = 1) ∧
    ∃ c1, Controller.Get memStore (freshController helloStore) ["GET", "q"]
        = some (none, c1) ∧
      c1.rw = (freshController helloStore).rw ++ valueBlock "q" hello ++ goBytes "END\r\n" ∧
      c1.currentValue = none ∧ c1.currentCommand = none ∧
      c1.openReads = (freshController helloStore).openReads := by
  obtain ⟨c1, h1, h2, h3, -⟩ := open_holds_item_and_counts memStore
    (freshController helloStore) ["GET", "q/open"] openQ "q" (by decide) (by decide)
    (by decide) rfl (by decide)
  obtain ⟨d1, g1, g2, -, g4⟩ := open_holds_item_and_counts memStore
    (freshController helloStore) ["GET", "q"] ⟨"GET", "q", "", ""⟩ "q" (by decide) (by decide)
    (by decide) rfl (by decide)
  obtain ⟨a1, a2, a3, -⟩ := h3 rfl
  obtain ⟨b1, b2, b3⟩ := g4 rfl
  exact ⟨⟨c1, h1, h2, a1, a2, a3⟩, ⟨d1, g1, g2, b1, b2, b3⟩⟩

/-- C4 as stated fails: a connection holds "hello" and sends `GET q/close/open`
to a store in which the lookup of the close step succeeds and the lookup of the
open step fails. Get returns a server error, yet the held item and its command
context are gone and the open-reads counter of `q` went from 0 to -1. -/
theorem close_open_error_after_close :
    (holdingController failingStore openQ hello).currentValue = some hello ∧
    (holdingController failingStore openQ hello).openReads "q" = 0 ∧
    (Controller.Get memStore (holdingController failingStore openQ hello)
        ["GET", "q/close/open"]).map
        (fun r => (r.1, r.2.currentValue, r.2.currentCommand, r.2.openReads "q"))
      = some (some "SERVER_ERROR store unavailable", none, none, -1) := by
  decide

/-- C4, amended: if Get returns an error, then the held item, its command
context and every open-reads counter are as before the call, except when the
subcommand is `close/open`, an item was held, the close step resolved its
consumer `q` and succeeded, and the open step then failed: in that case the
connection is left as the close step left it, holding nothing, with the
counter of `q` decremented by one. -/
theorem error_keeps_state_unless_closed (S : Store σ κ) (c c1 : Controller σ κ)
    (input : List String) (cmd : Command) (err : String)
    (hparse : parseGetCommand input = some cmd)
    (herr : Controller.Get S c input = some (some err, c1)) :
    (c1.currentValue = c.currentValue ∧ c1.currentCommand = c.currentCommand ∧
        c1.openReads = c.openReads) ∨
      (cmd.SubCommand = "close/open" ∧ c.currentValue ≠ none ∧
        ∃ q, (c.getConsumer S cmd).1 = .ok q ∧ c1.currentValue = none ∧
          c1.currentCommand = none ∧
          c1.openReads = Function.update c.openReads q (c.openReads q + -1)) := by
  have hd : c.dispatch S cmd = (some err, c1) := by
    simp only [Controller.Get, hparse] at herr
    split at herr
    · next e c2 hdis =>
      cases herr
      exact hdis
    · cases herr
  clear herr
  unfold Controller.dispatch at hd
  split at hd
  · exact Or.inl (get_error_frame S c c1 cmd err hd)
  split at hd
  · exact Or.inl (getClose_error_frame S c c1 cmd err hd)
  split at hd
  · next hsub =>
    split at hd
    · next c2 hcl =>
      obtain ⟨q, hq, hv, -, -, -, hcase⟩ := getClose_ok S c c2 cmd hcl
      obtain ⟨g1, g2, g3⟩ := get_error_frame S c2 c1 cmd err hd
      rcases hcase with ⟨hidle, hcc, hor, -⟩ | ⟨hheld, hcc, hor, -⟩
      · exact Or.inl ⟨by rw [g1, hv, hidle], by rw [g2, hcc], by rw [g3, hor]⟩
      · exact Or.inr ⟨hsub, hheld, q, hq, by rw [g1, hv], by rw [g2, hcc], by rw [g3, hor]⟩
    · next e c2 hcl =>
      cases hd
      exact Or.inl (getClose_error_frame S c c1 cmd err hcl)
  split at hd
  · exact Or.inl (abort_error_frame S c c1 cmd err hd)
  split at hd
  · have h := peek_frame S c cmd
    rw [hd] at h
    exact Or.inl h
  · cases hd
    exact Or.inl ⟨rfl, rfl, rfl⟩

/-- Witness of the amended C4: `GET nope/abort` by a connection that holds
"hello", over a store without the queue `nope`. -/
theorem error_keeps_state_unless_closed_witness :
    ((holdingController helloStore openQ hello).after memStore
          ["GET", "nope/abort"]).currentValue
        = (holdingController helloStore openQ hello).currentValue ∧
      ((holdingController helloStore openQ hello).after memStore
          ["GET", "nope/abort"]).currentCommand
        = (holdingController helloStore openQ hello).currentCommand ∧
      ((holdingController helloStore openQ hello).after memStore
          ["GET", "nope/abort"]).openReads
        = (holdingController helloStore openQ hello).openReads ∨
    (Command.mk "GET" "nope" "abort" "").SubCommand = "close/open" ∧
      (holdingController helloStore openQ hello).currentValue ≠ none ∧
      ∃ q, ((holdingController helloStore openQ hello).getConsumer memStore
          (Command.mk "GET" "nope" "abort" "")).1 = .ok q ∧
        ((holdingController helloStore openQ hello).after memStore
          ["GET", "nope/abort"]).currentValue = none ∧
        ((holdingController helloStore openQ hello).after memStore
          ["GET", "nope/abort"]).currentCommand = none ∧
        ((holdingController helloStore openQ hello).after memStore
          ["GET", "nope/abort"]).openReads
          = Function.update (holdingController helloStore openQ hello).openReads q
            ((holdingController helloStore openQ hello).openReads q + -1) :=
  error_keeps_state_unless_closed memStore (holdingController helloStore openQ hello)
    ((holdingController helloStore openQ hello).after memStore ["GET", "nope/abort"])
    ["GET", "nope/abort"] (Command.mk "GET" "nope" "abort" "") "SERVER_ERROR queue not found"
    (by decide) rfl
/-- C5: for every connection state and every `close` command whose consumer
resolves to `q`, Get succeeds and leaves the connection holding nothing; the
open-reads counter of `q` changes by -1 if an item was held and by 0 if not,
no other counter changes; the store is left as the resolution left it and the
operations issued are the lookups of the resolution and at most the counter
update, so neither GetNext nor PutBack is called. -/
theorem close_releases_without_store_access (S : Store σ κ) (c : Controller σ κ)
    (input : List String) (cmd : Command) (q : κ)
    (hparse : parseGetCommand input = some cmd)
    (hsub : cmd.SubCommand = "close")
    (hres : (c.getConsumer S cmd).1 = .ok q) :
    ∃ c1, Controller.Get S c input = some (none, c1) ∧
      c1.currentValue = none ∧
      c1.openReads q = c.openReads q + (if c.currentValue = none then 0 else -1) ∧
      (∀ k, k ≠ q → c1.openReads k = c.openReads k) ∧
      c1.repo = (c.getConsumer S cmd).2.repo ∧
      ∃ new, c1.calls = c.calls ++ new ∧
        ∀ e ∈ new, Call.isGetNext e = false ∧ Call.isPutBack e = false := by
  obtain ⟨c2, hcl⟩ := getClose_of_resolved S c cmd q hres
  obtain ⟨q1, hq1, hv, -, -, hrepo, hcase⟩ := getClose_ok S c c2 cmd hcl
  have hqq : q1 = q := by
    rw [hres] at hq1
    cases hq1
    rfl
  subst hqq
  obtain ⟨lk, hlk, hlkall⟩ := getConsumer_calls S c cmd
  have hnolk : ∀ e ∈ lk, Call.isGetNext e = false ∧ Call.isPutBack e = false := by
    intro e he
    have := hlkall e he
    cases e <;> simp_all [Call.isLookup, Call.isGetNext, Call.isPutBack]
  refine ⟨c2.write (goBytes "END\r\n"), ?_, hv, ?_, ?_, hrepo, ?_⟩
  · simp [Controller.Get, hparse, Controller.dispatch, hsub, hcl]
  · rcases hcase with ⟨hidle, -, hor, -⟩ | ⟨hheld, -, hor, -⟩
    · simp [Controller.write, hor, hidle]
    · simp [Controller.write, hor, hheld]
  · intro k hk
    rcases hcase with ⟨-, -, hor, -⟩ | ⟨-, -, hor, -⟩
    · simp [Controller.write, hor]
    · simp [Controller.write, hor, Function.update, hk]
  · rcases hcase with ⟨-, -, -, hcalls⟩ | ⟨-, -, -, hcalls⟩
    · exact ⟨lk, by simp [Controller.write, hcalls, hlk], hnolk⟩
    · refine ⟨lk ++ [Call.UpdateOpenReads q1 (-1)], by simp [Controller.write, hcalls, hlk], ?_⟩
      intro e he
      rcases List.mem_append.mp he with h | h
      · exact hnolk e h
      · simp at h
        subst h
        exact ⟨rfl, rfl⟩

/-- Witness of C5: `GET q/close` by a connection that holds "hello". -/
theorem close_releases_without_store_access_witness :
    ∃ c1, Controller.Get memStore (holdingController helloStore openQ hello) ["GET", "q/close"]
        = some (none, c1) ∧
      c1.currentValue = none ∧
      c1.openReads "q" = (holdingController helloStore openQ hello).openReads "q"
        + (if (holdingController helloStore openQ hello).currentValue = none then 0 else -1) ∧
      (∀ k, k ≠ "q" → c1.openReads k = (holdingController helloStore openQ hello).openReads k) ∧
      c1.repo = ((holdingController helloStore openQ hello).getConsumer memStore closeQ).2.repo ∧
      ∃ new, c1.calls = (holdingController helloStore openQ hello).calls ++ new ∧
        ∀ e ∈ new, Call.isGetNext e = false ∧ Call.isPutBack e = false :=
  close_releases_without_store_access memStore (holdingController helloStore openQ hello)
    ["GET", "q/close"] closeQ "q" (by decide) (by decide) rfl
/-- C6 as stated fails: a fresh connection opens "hello" from the queue `a`
and then sends `GET b/close`. Both commands succeed; the connection holds
nothing afterwards, yet the open-reads counter of `a` is 1 and that of `b`
is -1. -/
theorem close_on_other_queue_skews_counters :
    (freshController twoQueues).currentValue = none ∧
    (Controller.Get memStore (freshController twoQueues) ["GET", "a/open"]).map
        (fun r => (r.1, r.2.currentValue)) = some (none, some hello) ∧
    (Controller.Get memStore ((freshController twoQueues).after memStore ["GET", "a/open"])
        ["GET", "b/close"]).map (fun r => r.1) = some none ∧
    (Controller.run memStore (freshController twoQueues)
        [["GET", "a/open"], ["GET", "b/close"]]).map
        (fun c => (c.currentValue, c.openReads "a", c.openReads "b")) = some (none, 1, -1) := by
  decide

/-- C6, amended: a connection starts idle with every open-reads counter at 0
and processes any finite sequence of GET commands (each with at least two
tokens) in which every `close`, `close/open` or `abort` issued while an item is
held resolves to the consumer that item was obtained from, that is, the
consumer whose GetNext call returned the held item. Then the run completes and
the open-reads counter of each consumer is 1 if the connection holds an item
obtained from that consumer and 0 otherwise; whenever an item is held it was
obtained from some consumer. -/
theorem openReads_tracks_holder (S : Store σ κ) (c0 : Controller σ κ)
    (inputs : List (List String))
    (hidle : c0.currentValue = none)
    (hzero : ∀ k, c0.openReads k = 0)
    (htok : ∀ input ∈ inputs, 2 ≤ input.length)
    (hmatch : Controller.releasesMatch S c0 inputs = true) :
    ∃ c, Controller.run S c0 inputs = some c ∧
      (∀ k, c.openReads k = if c.heldFrom = some k then 1 else 0) ∧
      (c.currentValue ≠ none → ∃ q, c.heldFrom = some q) := by
  have hinv : (∀ k, c0.openReads k = if c0.creditedTo = some k then 1 else 0) ∧ Synced c0 := by
    refine ⟨?_, synced_of_idle hidle⟩
    intro k
    rw [creditedTo_idle hidle, hzero k]
    simp
  clear hidle hzero
  induction inputs generalizing c0 with
  | nil =>
    refine ⟨c0, rfl, ?_, ?_⟩
    · intro k
      rw [heldFrom_eq_creditedTo hinv.2]
      exact hinv.1 k
    · intro hne
      cases hv : c0.currentValue with
      | none => exact absurd hv hne
      | some held =>
        obtain ⟨q, h1, -⟩ := hinv.2 held hv
        exact ⟨q, by simp [Controller.heldFrom, hv, h1]⟩
  | cons input rest ih =>
    obtain ⟨hcount, hsync⟩ := hinv
    obtain ⟨cmd, hparse⟩ := parseGetCommand_isSome input (htok input (by simp))
    obtain ⟨r, hr, hstep⟩ := Get_step S c0 input cmd hparse
    have hafter := after_of_Get S c0 input r hr
    simp only [Controller.releasesMatch, Bool.and_eq_true, Bool.not_eq_true', hafter] at hmatch
    obtain ⟨hmis, hrest⟩ := hmatch
    have hframe : ∀ a b : Controller σ κ, Frame a b →
        (∀ k, a.openReads k = if a.creditedTo = some k then 1 else 0) →
        ∀ k, b.openReads k = if b.creditedTo = some k then 1 else 0 := by
      intro a b hab ha k
      rw [creditedTo_frame hab, hab.2.1]
      exact ha k
    have hacq : ∀ (a b : Controller σ κ) (q : κ), Acquire a b q →
        (∀ k, a.openReads k = if a.creditedTo = some k then 1 else 0) →
        ∀ k, b.openReads k = if b.creditedTo = some k then 1 else 0 := by
      intro a b q hab ha k
      have hz : ∀ k, a.openReads k = 0 := by
        intro k
        rw [ha k, creditedTo_idle hab.1]
        simp
      rw [creditedTo_acquire hab, hab.2.2.1]
      by_cases hk : k = q
      · subst hk
        simp [hz]
      · have hk2 : q ≠ k := fun h => hk h.symm
        simp [Function.update, hk, hk2, hz]
    have hrel : ∀ (a b : Controller σ κ) (q : κ), Release a b q → a.creditedTo = some q →
        (∀ k, a.openReads k = if a.creditedTo = some k then 1 else 0) →
        ∀ k, b.openReads k = if b.creditedTo = some k then 1 else 0 := by
      intro a b q hab hq ha k
      rw [creditedTo_idle hab.2.1, hab.2.2.1]
      by_cases hk : k = q
      · subst hk
        simp [ha k, hq]
      · have hk2 : q ≠ k := fun h => hk h.symm
        simp [Function.update, hk, ha k, hq, hk2]
    have hnext : ∀ k, r.2.openReads k = if r.2.creditedTo = some k then 1 else 0 := by
      rcases hstep with h | ⟨q, h⟩ | ⟨q, hs, hq, c2, hrl, h⟩
      · exact hframe _ _ h hcount
      · exact hacq _ _ q h hcount
      · have hheld : c0.creditedTo = some q := by
          rw [← heldFrom_eq_creditedTo hsync]
          simp only [Controller.mismatchedRelease, hparse, hq] at hmis
          simpa [hrl.1, hs] using hmis
        have h2 := hrel _ _ q hrl hheld hcount
        rcases h with h | ⟨q2, h⟩
        · exact hframe _ _ h h2
        · exact hacq _ _ q2 h h2
    obtain ⟨c, hc, hcinv⟩ := ih r.2 (fun i hi => htok i (List.mem_cons_of_mem _ hi)) hrest
      ⟨hnext, Get_synced S c0 input r hr hsync⟩
    exact ⟨c, by simp [Controller.run, hr, hc], hcinv⟩

/-- Witness of the amended C6: open from `a`, abort on `a`, open again and
peek on `a`. -/
theorem openReads_tracks_holder_witness :
    ∃ c, Controller.run memStore (freshController twoQueues)
        [["GET", "a/open"], ["GET", "a/abort"], ["GET", "a/open"], ["GET", "a/peek"]]
        = some c ∧
      (∀ k, c.openReads k = if c.heldFrom = some k then 1 else 0) ∧
      (c.currentValue ≠ none → ∃ q, c.heldFrom = some q) :=
  openReads_tracks_holder memStore (freshController twoQueues)
    [["GET", "a/open"], ["GET", "a/abort"], ["GET", "a/open"], ["GET", "a/peek"]]
    (by decide) (by intro k; rfl) (by decide) (by decide)

/-- C7: a connection starts idle with an empty log and processes any finite
sequence of GET commands (each with at least two tokens). Then the run
completes, the sum of all open-reads deltas it has issued is 1 if it holds an
item and 0 if it is idle, and its log is regular: every +1 delta was issued
with no +1 outstanding, every -1 delta with a +1 outstanding (so each +1 is
followed by at most one -1), no other delta occurs, and at most one PutBack
succeeded for each held item. -/
theorem no_double_release (S : Store σ κ) (c0 : Controller σ κ)
    (inputs : List (List String))
    (hidle : c0.currentValue = none)
    (hlog : c0.calls = [])
    (htok : ∀ input ∈ inputs, 2 ≤ input.length) :
    ∃ c, Controller.run S c0 inputs = some c ∧
      deltaSum c.calls = (if c.currentValue = none then 0 else 1) ∧
      (ledger c.calls).ok = true := by
  have hinv : deltaSum c0.calls = (if c0.currentValue = none then 0 else 1) ∧
      ledger c0.calls = ⟨c0.currentValue.isSome, false, true⟩ := by
    rw [hlog, hidle]
    exact ⟨rfl, rfl⟩
  clear hidle hlog
  induction inputs generalizing c0 with
  | nil => exact ⟨c0, rfl, hinv.1, by rw [hinv.2]⟩
  | cons input rest ih =>
    obtain ⟨cmd, hparse⟩ := parseGetCommand_isSome input (htok input (by simp))
    obtain ⟨r, hr, hstep⟩ := Get_step S c0 input cmd hparse
    have hframe : ∀ a b : Controller σ κ, Frame a b →
        (deltaSum a.calls = (if a.currentValue = none then 0 else 1) ∧
          ledger a.calls = ⟨a.currentValue.isSome, false, true⟩) →
        (deltaSum b.calls = (if b.currentValue = none then 0 else 1) ∧
          ledger b.calls = ⟨b.currentValue.isSome, false, true⟩) := by
      intro a b hab ha
      obtain ⟨hv, -, n, en, qn⟩ := hab
      rw [en, deltaSum_append_quiet _ _ qn, ledger_append_quiet _ _ qn, hv]
      exact ha
    have hacq : ∀ (a b : Controller σ κ) (q : κ), Acquire a b q →
        (deltaSum a.calls = (if a.currentValue = none then 0 else 1) ∧
          ledger a.calls = ⟨a.currentValue.isSome, false, true⟩) →
        (deltaSum b.calls = (if b.currentValue = none then 0 else 1) ∧
          ledger b.calls = ⟨b.currentValue.isSome, false, true⟩) := by
      intro a b q hab ha
      obtain ⟨hv, ⟨v, -, hbv⟩, -, n, en, qn⟩ := hab
      rw [en, deltaSum_snoc, ledger_snoc, deltaSum_append_quiet _ _ qn,
        ledger_append_quiet _ _ qn, ha.1, ha.2, hv, hbv]
      simp [Ledger.step]
    have hrel : ∀ (a b : Controller σ κ) (q : κ), Release a b q →
        (deltaSum a.calls = (if a.currentValue = none then 0 else 1) ∧
          ledger a.calls = ⟨a.currentValue.isSome, false, true⟩) →
        (deltaSum b.calls = (if b.currentValue = none then 0 else 1) ∧
          ledger b.calls = ⟨b.currentValue.isSome, false, true⟩) := by
      intro a b q hab ha
      obtain ⟨hv, hbv, -, n, pb, en, qn, hpb⟩ := hab
      have hsome : a.currentValue.isSome = true := by
        cases hcv : a.currentValue with
        | none => exact absurd hcv hv
        | some x => rfl
      rcases hpb with hpb | ⟨w, hpb⟩
      · subst hpb
        rw [en, List.append_nil, deltaSum_snoc, ledger_snoc, deltaSum_append_quiet _ _ qn,
          ledger_append_quiet _ _ qn, ha.1, ha.2, hbv, hsome]
        simp [Ledger.step, hv]
      · subst hpb
        rw [en, deltaSum_snoc, ledger_snoc, deltaSum_snoc, ledger_snoc,
          deltaSum_append_quiet _ _ qn, ledger_append_quiet _ _ qn, ha.1, ha.2, hbv, hsome]
        simp [Ledger.step, hv]
    have hnext : deltaSum r.2.calls = (if r.2.currentValue = none then 0 else 1) ∧
        ledger r.2.calls = ⟨r.2.currentValue.isSome, false, true⟩ := by
      rcases hstep with h | ⟨q, h⟩ | ⟨q, -, -, c2, hrl, h⟩
      · exact hframe _ _ h hinv
      · exact hacq _ _ q h hinv
      · have h2 := hrel _ _ q hrl hinv
        rcases h with h | ⟨q2, h⟩
        · exact hframe _ _ h h2
        · exact hacq _ _ q2 h h2
    obtain ⟨c, hc, hcinv⟩ := ih r.2 (fun i hi => htok i (List.mem_cons_of_mem _ hi)) hnext
    exact ⟨c, by simp [Controller.run, hr, hc], hcinv⟩

/-- Witness of C7: open from `a`, close on `b`, open on `a/close/open`, abort
twice. -/
theorem no_double_release_witness :
    ∃ c, Controller.run memStore (freshController twoQueues)
        [["GET", "a/open"], ["GET", "b/close"], ["GET", "a/close/open"], ["GET", "a/abort"],
          ["GET", "a/abort"]] = some c ∧
      deltaSum c.calls = (if c.currentValue = none then 0 else 1) ∧
      (ledger c.calls).ok = true :=
  no_double_release memStore (freshController twoQueues)
    [["GET", "a/open"], ["GET", "b/close"], ["GET", "a/close/open"], ["GET", "a/abort"],
      ["GET", "a/abort"]] (by decide) (by decide) (by decide)
/-- C8: for every connection state and every `peek` command, Get returns
(with success or with an error) and the held item, its command context and
every open-reads counter are as before; the operations it issued contain no
GetNext, no PutBack and no counter update. -/
theorem peek_changes_nothing (S : Store σ κ) (c : Controller σ κ)
    (input : List String) (cmd : Command)
    (hparse : parseGetCommand input = some cmd)
    (hsub : cmd.SubCommand = "peek") :
    ∃ r, Controller.Get S c input = some r ∧
      r.2.currentValue = c.currentValue ∧
      r.2.currentCommand = c.currentCommand ∧
      r.2.openReads = c.openReads ∧
      ∃ new, r.2.calls = c.calls ++ new ∧
        ∀ e ∈ new, Call.isGetNext e = false ∧ Call.isPutBack e = false ∧
          Call.isUpdateOpenReads e = false := by
  obtain ⟨lk, hlk, hlkall⟩ := getConsumer_calls S c cmd
  have hnolk : ∀ e ∈ lk, Call.isGetNext e = false ∧ Call.isPutBack e = false ∧
      Call.isUpdateOpenReads e = false := by
    intro e he
    have := hlkall e he
    cases e <;> simp_all [Call.isLookup, Call.isGetNext, Call.isPutBack, Call.isUpdateOpenReads]
  have h1 := getConsumer_currentValue S c cmd
  have h2 := getConsumer_currentCommand S c cmd
  have h3 := getConsumer_openReads S c cmd
  have hd : c.dispatch S cmd = c.peek S cmd := by
    simp [Controller.dispatch, hsub]
  simp only [Controller.Get, hparse, hd]
  unfold Controller.peek
  rcases hgc : c.getConsumer S cmd with ⟨res, c1⟩
  rw [hgc] at hlk h1 h2 h3
  simp only at hlk h1 h2 h3
  cases res with
  | error err => exact ⟨_, rfl, h1, h2, h3, lk, hlk, hnolk⟩
  | ok q =>
    have hall : ∀ e ∈ lk ++ [Call.Peek q], Call.isGetNext e = false ∧
        Call.isPutBack e = false ∧ Call.isUpdateOpenReads e = false := by
      intro e he
      rcases List.mem_append.mp he with h | h
      · exact hnolk e h
      · simp at h
        subst h
        exact ⟨rfl, rfl, rfl⟩
    dsimp only
    split
    · exact ⟨_, rfl, by simp [Controller.write, Controller.writeValue, h1],
        by simp [Controller.write, Controller.writeValue, h2],
        by simp [Controller.write, Controller.writeValue, h3], lk ++ [Call.Peek q],
        by simp [Controller.write, Controller.writeValue, hlk], hall⟩
    · exact ⟨_, rfl, by simp [Controller.write, h1], by simp [Controller.write, h2],
        by simp [Controller.write, h3], lk ++ [Call.Peek q], by simp [Controller.write, hlk],
        hall⟩

/-- Witness of C8: `GET q/peek` by a connection that holds "hello" while the
queue has another "hello" at its front. -/
theorem peek_changes_nothing_witness :
    ∃ r, Controller.Get memStore (holdingController helloStore openQ hello) ["GET", "q/peek"]
        = some r ∧
      r.2.currentValue = (holdingController helloStore openQ hello).currentValue ∧
      r.2.currentCommand = (holdingController helloStore openQ hello).currentCommand ∧
      r.2.openReads = (holdingController helloStore openQ hello).openReads ∧
      ∃ new, r.2.calls = (holdingController helloStore openQ hello).calls ++ new ∧
        ∀ e ∈ new, Call.isGetNext e = false ∧ Call.isPutBack e = false ∧
          Call.isUpdateOpenReads e = false :=
  peek_changes_nothing memStore (holdingController helloStore openQ hello) ["GET", "q/peek"]
    peekQ (by decide) (by decide)

/-- C9: for every `abort` command, whatever its queue spec: on an idle
connection Get succeeds and the controller afterwards is the one before with
only `END` CR LF appended to the output, so no lookup and no PutBack took
place, the store and every counter are unchanged and the connection is still
idle; and an `abort` processed right after a `close` that succeeded has
exactly that effect. -/
theorem abort_when_idle_is_noop (S : Store σ κ) (c : Controller σ κ)
    (input : List String) (cmd : Command)
    (hparse : parseGetCommand input = some cmd)
    (hsub : cmd.SubCommand = "abort") :
    (c.currentValue = none →
        Controller.Get S c input = some (none, c.write (goBytes "END\r\n"))) ∧
      ∀ (inClose : List String) (cmdClose : Command) (c1 : Controller σ κ),
        parseGetCommand inClose = some cmdClose → cmdClose.SubCommand = "close" →
        Controller.Get S c inClose = some (none, c1) →
        Controller.Get S c1 input = some (none, c1.write (goBytes "END\r\n")) := by
  have main : ∀ d : Controller σ κ, d.currentValue = none →
      Controller.Get S d input = some (none, d.write (goBytes "END\r\n")) := by
    intro d hd
    simp [Controller.Get, hparse, Controller.dispatch, hsub, Controller.abort, hd]
  refine ⟨main c, ?_⟩
  intro inClose cmdClose c1 hpc hsc hget
  apply main
  rcases hcl : c.getClose S cmdClose with ⟨e, c2⟩
  simp [Controller.Get, hpc, Controller.dispatch, hsc, hcl] at hget
  cases e with
  | some err => simp at hget
  | none =>
    simp at hget
    subst hget
    obtain ⟨q, -, hv, -⟩ := getClose_ok S c c2 cmdClose hcl
    simpa [Controller.write] using hv

/-- Witness of C9: `GET nope/abort` on a fresh connection over a store without
the queue `nope`, and after the `GET q/close` of a connection holding
"hello". -/
theorem abort_when_idle_is_noop_witness :
    (freshController helloStore).currentValue = none ∧
    Controller.Get memStore (freshController helloStore) ["GET", "nope/abort"]
      = some (none, (freshController helloStore).write (goBytes "END\r\n")) :=
  ⟨by decide,
    (abort_when_idle_is_noop memStore (freshController helloStore) ["GET", "nope/abort"]
      (Command.mk "GET" "nope" "abort" "") (by decide) (by decide)).1 (by decide)⟩

/-- C10 as stated fails for the empty payload: GetNext returns the empty
payload as found to an idle connection processing `GET q/open`, and Get
writes only `END` CR LF, not a VALUE block of length 0. -/
theorem empty_payload_is_not_emitted :
    (memStore.GetNext emptyItemStore "q").1 = ([], true) ∧
    (Controller.Get memStore (freshController emptyItemStore) ["GET", "q/open"]).map
        (fun r => (r.1, r.2.rw)) = some (none, goBytes "END\r\n") ∧
    goBytes "END\r\n" ≠ goBytes "VALUE q 0 0\r\n" ++ [] ++ goBytes "\r\n" ++ goBytes "END\r\n" := by
  decide

/-- C10, amended: for every non-empty payload `p` that GetNext returns to an
idle connection processing a GET with subcommand `open` whose consumer
resolves, Get succeeds and appends to the output exactly
`VALUE <QueueName> 0 <decimal length of p>` CR LF, then `p` unchanged, CR LF,
then `END` CR LF, where QueueName is the parsed queue name. -/
theorem open_emits_payload (S : Store σ κ) (c : Controller σ κ)
    (input : List String) (cmd : Command) (q : κ) (p : Bytes)
    (hidle : c.currentValue = none)
    (hparse : parseGetCommand input = some cmd)
    (hsub : cmd.SubCommand = "open")
    (hres : (c.getConsumer S cmd).1 = .ok q)
    (hnext : (S.GetNext (c.getConsumer S cmd).2.repo q).1.1 = p)
    (hp : p ≠ []) :
    ∃ c1, Controller.Get S c input = some (none, c1) ∧
      c1.rw = c.rw ++ goBytes ("VALUE " ++ cmd.QueueName ++ " 0 " ++ toString p.length ++ "\r\n")
        ++ p ++ goBytes "\r\n" ++ goBytes "END\r\n" := by
  have hitem : (S.GetNext (c.getConsumer S cmd).2.repo q).1.1 ≠ [] := by
    rw [hnext]; exact hp
  refine ⟨_, Get_open_idle_item S c input cmd q hparse hsub hidle hres hitem, ?_⟩
  simp [Controller.write, Controller.UpdateOpenReads, Controller.setCurrentState,
    Controller.writeValue, hnext]

/-- Witness of the amended C10: `GET q:g/open` on a fresh connection, the
group `g` of `q` holding "hello"; the header names `q`. -/
theorem open_emits_payload_witness :
    ∃ c1, Controller.Get memStore (freshController groupStore) ["GET", "q:g/open"]
        = some (none, c1) ∧
      c1.rw = (freshController groupStore).rw
        ++ goBytes ("VALUE " ++ "q" ++ " 0 " ++ toString hello.length ++ "\r\n")
        ++ hello ++ goBytes "\r\n" ++ goBytes "END\r\n" :=
  open_emits_payload memStore (freshController groupStore) ["GET", "q:g/open"] openQG "q:g"
    hello (by decide) (by decide) (by decide) rfl (by decide) (by decide)

end Claims

/-! ## The claims on framing, equivalence, resolution and parsing -/

section FurtherClaims

variable {σ κ : Type}

/-- C11: on an idle connection, for a GET whose parsed subcommand is "" or
"open", whose consumer resolves and whose GetNext returns no item (an empty
payload), Get succeeds, appends exactly `END` CR LF to the output (no VALUE
line), the connection stays idle with its command context as before, and no
open-reads counter changes. -/
theorem open_without_item_stays_idle [DecidableEq κ] (S : Store σ κ) (c : Controller σ κ)
    (input : List String) (cmd : Command) (q : κ)
    (hidle : c.currentValue = none)
    (hparse : parseGetCommand input = some cmd)
    (hsub : cmd.SubCommand = "" ∨ cmd.SubCommand = "open")
    (hres : (c.getConsumer S cmd).1 = .ok q)
    (hnone : (S.GetNext (c.getConsumer S cmd).2.repo q).1.1 = []) :
    ∃ c1, Controller.Get S c input = some (none, c1) ∧
      c1.rw = c.rw ++ goBytes "END\r\n" ∧
      c1.currentValue = none ∧
      c1.currentCommand = c.currentCommand ∧
      c1.openReads = c.openReads := by
  have h1 := getConsumer_rw S c cmd
  have h2 := getConsumer_currentValue S c cmd
  have h3 := getConsumer_currentCommand S c cmd
  have h4 := getConsumer_openReads S c cmd
  rcases hgc : c.getConsumer S cmd with ⟨r, c0⟩
  rw [hgc] at hres hnone h1 h2 h3 h4
  simp only at hres hnone h1 h2 h3 h4
  subst hres
  simp [Controller.Get, hparse, Controller.dispatch, hsub, Controller.get, hidle, hgc, hnone,
    Controller.write, h1, h2, h3, h4]

/-- Witness of C11: `GET q/open` on a fresh connection over the empty queue
`q`. -/
theorem open_without_item_stays_idle_witness :
    ∃ c1, Controller.Get memStore (freshController ⟨[("q", [])], none⟩) ["GET", "q/open"]
        = some (none, c1) ∧
      c1.rw = (freshController ⟨[("q", [])], none⟩).rw ++ goBytes "END\r\n" ∧
      c1.currentValue = none ∧
      c1.currentCommand = (freshController ⟨[("q", [])], none⟩).currentCommand ∧
      c1.openReads = (freshController ⟨[("q", [])], none⟩).openReads :=
  open_without_item_stays_idle memStore (freshController ⟨[("q", [])], none⟩)
    ["GET", "q/open"] openQ "q" (by decide) (by decide) (by decide) rfl (by decide)

/-- C12 as stated fails: on an idle connection over a store in which one more
lookup succeeds and every later one fails, `GET q/open` succeeds while
`GET q/close/open` returns a server error, because it resolves the consumer
once for the close step and once more for the open step. It also fails for
the spec `xt=5`, where the two inputs do not parse to the same queue:
`GET xt=5/open` is a plain get on the queue `xt=5/open` and
`GET xt=5/close/open` is an open on the queue `xclose`. -/
theorem close_open_resolves_twice :
    (freshController failingStore).currentValue = none ∧
    (Controller.Get memStore (freshController failingStore) ["GET", "q/open"]).map
        (fun r => r.1) = some none ∧
    (Controller.Get memStore (freshController failingStore) ["GET", "q/close/open"]).map
        (fun r => r.1) = some (some "SERVER_ERROR store unavailable") ∧
    parseGetCommand ["GET", "xt=5/open"] = some ⟨"GET", "xt=5/open", "", ""⟩ ∧
    parseGetCommand ["GET", "xt=5/close/open"] = some ⟨"GET", "xclose", "open", ""⟩ ∧
    (Controller.Get memStore (freshController ⟨[("xclose", [hello])], none⟩)
        ["GET", "xt=5/open"]).map (fun r => (r.1, r.2.currentValue))
      = some (some "SERVER_ERROR queue not found", none) ∧
    (Controller.Get memStore (freshController ⟨[("xclose", [hello])], none⟩)
        ["GET", "xt=5/close/open"]).map (fun r => (r.1, r.2.currentValue))
      = some (none, some hello) := by
  decide

/-- C12, amended: on an idle connection, for every two inputs that parse to
the same queue name and consumer group, one with subcommand `close/open` and
one with subcommand `open`, if resolving the consumer of the command a second
time gives the same consumer or error and leaves the store as the first
resolution left it, then processing the `close/open` input and processing the
`open` input give the same return value, the same output, the same held item
with the same queue and consumer-group context, the same open-reads counters,
the same command counter and the same store state. -/
theorem close_open_like_open_when_idle [DecidableEq κ] (S : Store σ κ) (c : Controller σ κ)
    (inOpen inCloseOpen : List String) (cmdO cmdCO : Command)
    (hidle : c.currentValue = none)
    (hpO : parseGetCommand inOpen = some cmdO)
    (hpCO : parseGetCommand inCloseOpen = some cmdCO)
    (hO : cmdO.SubCommand = "open") (hCO : cmdCO.SubCommand = "close/open")
    (hq : cmdCO.QueueName = cmdO.QueueName) (hg : cmdCO.ConsumerGroup = cmdO.ConsumerGroup)
    (hstable : ((c.getConsumer S cmdO).2.getConsumer S cmdO).1 = (c.getConsumer S cmdO).1 ∧
      ((c.getConsumer S cmdO).2.getConsumer S cmdO).2.repo = (c.getConsumer S cmdO).2.repo) :
    ∃ rO rCO, Controller.Get S c inOpen = some rO ∧
      Controller.Get S c inCloseOpen = some rCO ∧
      rCO.1 = rO.1 ∧
      rCO.2.rw = rO.2.rw ∧
      rCO.2.currentValue = rO.2.currentValue ∧
      rCO.2.currentCommand.map (fun x => (x.QueueName, x.ConsumerGroup))
        = rO.2.currentCommand.map (fun x => (x.QueueName, x.ConsumerGroup)) ∧
      rCO.2.openReads = rO.2.openReads ∧
      rCO.2.CmdGet = rO.2.CmdGet ∧
      rCO.2.repo = rO.2.repo := by
  obtain ⟨d1, d2, d3, d4, d5, d6, d7⟩ :=
    dispatch_closeOpen_eq_open S c cmdO cmdCO hidle hO hCO hq hg hstable
  simp only [Controller.Get, hpO, hpCO]
  rcases hdO : c.dispatch S cmdO with ⟨eO, cO⟩
  rcases hdCO : c.dispatch S cmdCO with ⟨eCO, cCO⟩
  rw [hdO, hdCO] at d1 d2 d3 d4 d5 d6 d7
  simp only at d1 d2 d3 d4 d5 d6 d7
  subst d1
  cases eCO with
  | some err => exact ⟨_, _, rfl, rfl, rfl, d2, d3, d4, d5, d7, d6⟩
  | none =>
    exact ⟨_, _, rfl, rfl, rfl, (by simp [Controller.write, d2]), d3, d4, d5, d7, d6⟩

/-- Witness of the amended C12: `GET q:g/t=5/open` and
`GET q:g/t=5/close/open` on a fresh connection over a store whose lookups
always succeed. -/
theorem close_open_like_open_when_idle_witness :
    ∃ rO rCO, Controller.Get memStore (freshController groupStore) ["GET", "q:g/t=5/open"]
        = some rO ∧
      Controller.Get memStore (freshController groupStore) ["GET", "q:g/t=5/close/open"]
        = some rCO ∧
      rCO.1 = rO.1 ∧
      rCO.2.rw = rO.2.rw ∧
      rCO.2.currentValue = rO.2.currentValue ∧
      rCO.2.currentCommand.map (fun x => (x.QueueName, x.ConsumerGroup))
        = rO.2.currentCommand.map (fun x => (x.QueueName, x.ConsumerGroup)) ∧
      rCO.2.openReads = rO.2.openReads ∧
      rCO.2.CmdGet = rO.2.CmdGet ∧
      rCO.2.repo = rO.2.repo :=
  close_open_like_open_when_idle memStore (freshController groupStore)
    ["GET", "q:g/t=5/open"] ["GET", "q:g/t=5/close/open"] openQG
    ⟨"GET", "q", "close/open", "g"⟩ (by decide) (by decide) (by decide) (by decide) (by decide)
    (by decide) (by decide) ⟨rfl, rfl⟩

/-- C13: for every connection state and every input whose parsed subcommand is
none of "", "open", "close", "close/open", "abort", "peek", Get returns the
error `ERROR Invalid command` and the controller is exactly as before: nothing
written, no store operation issued, the held item, its command context and
every counter unchanged. -/
theorem unknown_subcommand_is_rejected [DecidableEq κ] (S : Store σ κ) (c : Controller σ κ)
    (input : List String) (cmd : Command)
    (hparse : parseGetCommand input = some cmd)
    (h0 : cmd.SubCommand ≠ "") (h1 : cmd.SubCommand ≠ "open")
    (h2 : cmd.SubCommand ≠ "close") (h3 : cmd.SubCommand ≠ "close/open")
    (h4 : cmd.SubCommand ≠ "abort") (h5 : cmd.SubCommand ≠ "peek") :
    Controller.Get S c input = some (some "ERROR Invalid command", c) := by
  simp [Controller.Get, hparse, Controller.dispatch, h0, h1, h2, h3, h4, h5]

/-- Witness of C13: `GET q/flush` by a connection that holds "hello". -/
theorem unknown_subcommand_is_rejected_witness :
    Controller.Get memStore (holdingController helloStore openQ hello) ["GET", "q/flush"]
      = some (some "ERROR Invalid command", holdingController helloStore openQ hello) :=
  unknown_subcommand_is_rejected memStore (holdingController helloStore openQ hello)
    ["GET", "q/flush"] (Command.mk "GET" "q" "flush" "")
    (by decide) (by decide) (by decide) (by decide) (by decide) (by decide) (by decide)

/-- C14: for every connection state and every input with at least two tokens,
one Get call either returns an error whose text begins with `CLIENT_ERROR `,
`SERVER_ERROR ` or `ERROR ` and has written nothing, or returns success and
has appended to the output either `END` CR LF alone or one VALUE block (with
the parsed queue name and a non-empty payload) followed by `END` CR LF. -/
theorem response_framing [DecidableEq κ] (S : Store σ κ) (c : Controller σ κ)
    (input : List String) (htok : 2 ≤ input.length) :
    ∃ r cmd, Controller.Get S c input = some r ∧ parseGetCommand input = some cmd ∧
      ((∃ err, r.1 = some err ∧ classified err ∧ r.2.rw = c.rw) ∨
        (r.1 = none ∧
          (r.2.rw = c.rw ++ goBytes "END\r\n" ∨
            ∃ v, v ≠ [] ∧
              r.2.rw = c.rw ++ valueBlock cmd.QueueName v ++ goBytes "END\r\n"))) := by
  obtain ⟨cmd, hparse⟩ := parseGetCommand_isSome input htok
  have key : (∃ err, (c.dispatch S cmd).1 = some err ∧ classified err ∧
        (c.dispatch S cmd).2.rw = c.rw) ∨
      ((c.dispatch S cmd).1 = none ∧ ((c.dispatch S cmd).2.rw = c.rw ∨
        ∃ v, v ≠ [] ∧ (c.dispatch S cmd).2.rw = c.rw ++ valueBlock cmd.QueueName v)) := by
    unfold Controller.dispatch
    split
    · rcases get_out S c cmd with ⟨e, h1, h2, h3, -⟩ | ⟨h1, -, h3⟩
      · exact Or.inl ⟨e, h1, h2, h3⟩
      · exact Or.inr ⟨h1, h3⟩
    split
    · obtain ⟨h1 | h1, h2, -⟩ := getClose_out S c cmd
      · obtain ⟨e, he, hc⟩ := h1
        exact Or.inl ⟨e, he, hc, h2⟩
      · exact Or.inr ⟨h1, Or.inl h2⟩
    split
    · obtain ⟨h1, h2, -⟩ := getClose_out S c cmd
      split
      · next c1 hc1 =>
        rw [hc1] at h2
        simp only at h2
        rcases get_out S c1 cmd with ⟨e, g1, g2, g3, -⟩ | ⟨g1, -, g3⟩
        · exact Or.inl ⟨e, g1, g2, by rw [g3, h2]⟩
        · refine Or.inr ⟨g1, ?_⟩
          rw [h2] at g3
          exact g3
      · next e c1 hc1 =>
        rw [hc1] at h1 h2
        simp only at h1 h2
        rcases h1 with ⟨e2, he, hc⟩ | h1
        · exact Or.inl ⟨e2, he, hc, h2⟩
        · cases h1
    split
    · obtain ⟨h1 | h1, h2, -⟩ := abort_out S c cmd
      · obtain ⟨e, he, hc⟩ := h1
        exact Or.inl ⟨e, he, hc, h2⟩
      · exact Or.inr ⟨h1, Or.inl h2⟩
    split
    · rcases peek_out S c cmd with ⟨e, h1, h2, h3, -⟩ | ⟨h1, -, h3⟩
      · exact Or.inl ⟨e, h1, h2, h3⟩
      · exact Or.inr ⟨h1, h3⟩
    · exact Or.inl ⟨_, rfl, Or.inr (Or.inr ⟨_, rfl⟩), rfl⟩
  simp only [Controller.Get, hparse]
  rcases hd : c.dispatch S cmd with ⟨e, c1⟩
  rw [hd] at key
  simp only at key
  cases e with
  | some err =>
    refine ⟨_, cmd, rfl, rfl, ?_⟩
    rcases key with h | ⟨h, -⟩
    · exact Or.inl h
    · cases h
  | none =>
    refine ⟨_, cmd, rfl, rfl, Or.inr ⟨rfl, ?_⟩⟩
    rcases key with ⟨e, h, -⟩ | ⟨-, h | ⟨v, hv, h⟩⟩
    · cases h
    · exact Or.inl (by simp [Controller.write, h])
    · exact Or.inr ⟨v, hv, by simp [Controller.write, h]⟩

/-- Witness of C14: `GET q/open` on a fresh connection over a queue holding
"hello". -/
theorem response_framing_witness :
    ∃ r cmd, Controller.Get memStore (freshController helloStore) ["GET", "q/open"] = some r ∧
      parseGetCommand ["GET", "q/open"] = some cmd ∧
      ((∃ err, r.1 = some err ∧ classified err ∧ r.2.rw = (freshController helloStore).rw) ∨
        (r.1 = none ∧
          (r.2.rw = (freshController helloStore).rw ++ goBytes "END\r\n" ∨
            ∃ v, v ≠ [] ∧
              r.2.rw = (freshController helloStore).rw ++ valueBlock cmd.QueueName v
                ++ goBytes "END\r\n"))) :=
  response_framing memStore (freshController helloStore) ["GET", "q/open"] (by decide)

/-- C15: for every Get call whose parsed subcommand is "", "open",
"close/open" or "peek", the command counter CmdGet is incremented once (as a
64-bit unsigned counter) when the call returns success, whether or not an
item was found, hence is exactly one more than before whenever it was below
its maximum, and is unchanged when the call returns an error. -/
theorem CmdGet_counts_completed_gets [DecidableEq κ] (S : Store σ κ) (c : Controller σ κ)
    (input : List String) (cmd : Command)
    (hparse : parseGetCommand input = some cmd)
    (hsub : cmd.SubCommand = "" ∨ cmd.SubCommand = "open" ∨ cmd.SubCommand = "close/open" ∨
      cmd.SubCommand = "peek") :
    ∃ r, Controller.Get S c input = some r ∧
      (r.1 = none → r.2.CmdGet = (c.CmdGet + 1) % 2 ^ 64) ∧
      (r.1 = none → c.CmdGet + 1 < 2 ^ 64 → r.2.CmdGet = c.CmdGet + 1) ∧
      (r.1 ≠ none → r.2.CmdGet = c.CmdGet) := by
  have key : ((c.dispatch S cmd).1 = none →
        (c.dispatch S cmd).2.CmdGet = (c.CmdGet + 1) % 2 ^ 64) ∧
      ((c.dispatch S cmd).1 ≠ none → (c.dispatch S cmd).2.CmdGet = c.CmdGet) := by
    have hget : ∀ d : Controller σ κ, ((d.get S cmd).1 = none →
          (d.get S cmd).2.CmdGet = (d.CmdGet + 1) % 2 ^ 64) ∧
        ((d.get S cmd).1 ≠ none → (d.get S cmd).2.CmdGet = d.CmdGet) := by
      intro d
      rcases get_out S d cmd with ⟨e, h1, -, -, h4⟩ | ⟨h1, h2, -⟩
      · exact ⟨fun h => (by rw [h1] at h; cases h), fun _ => h4⟩
      · exact ⟨fun _ => h2, fun h => absurd h1 h⟩
    unfold Controller.dispatch
    split
    · exact hget c
    split
    · next hn h =>
      simp [h] at hsub
    split
    · obtain ⟨-, -, h3⟩ := getClose_out S c cmd
      split
      · next c1 hcl =>
        rw [hcl] at h3
        simp only at h3
        rw [← h3]
        exact hget c1
      · next err c1 hcl =>
        rw [hcl] at h3
        exact ⟨fun hh => (by cases hh), fun _ => h3⟩
    split
    · next h =>
      simp [h] at hsub
    split
    · rcases peek_out S c cmd with ⟨e, h1, -, -, h4⟩ | ⟨h1, h2, -⟩
      · exact ⟨fun h => (by rw [h1] at h; cases h), fun _ => h4⟩
      · exact ⟨fun _ => h2, fun h => absurd h1 h⟩
    · next n1 n2 n3 n4 n5 =>
      rcases hsub with h | h | h | h
      · exact absurd (Or.inl h) n1
      · exact absurd (Or.inr h) n1
      · exact absurd h n3
      · exact absurd h n5
  simp only [Controller.Get, hparse]
  rcases hd : c.dispatch S cmd with ⟨e, c1⟩
  rw [hd] at key
  simp only at key
  cases e with
  | some err =>
    exact ⟨_, rfl, fun h => (by cases h), fun h => (by cases h), fun _ => key.2 (by simp)⟩
  | none =>
    have h1 : c1.CmdGet = (c.CmdGet + 1) % 2 ^ 64 := key.1 rfl
    refine ⟨_, rfl, fun _ => (by simp [Controller.write, h1]), fun _ hlt => ?_,
      fun h => absurd rfl h⟩
    simp only [Controller.write, h1]
    exact Nat.mod_eq_of_lt hlt

/-- Witness of C15: `GET q/close/open` by a connection that holds "hello"
over a queue with another "hello". -/
theorem CmdGet_counts_completed_gets_witness :
    ∃ r, Controller.Get memStore (holdingController helloStore openQ hello)
        ["GET", "q/close/open"] = some r ∧
      (r.1 = none → r.2.CmdGet = ((holdingController helloStore openQ hello).CmdGet + 1) % 2 ^ 64) ∧
      (r.1 = none → (holdingController helloStore openQ hello).CmdGet + 1 < 2 ^ 64 →
        r.2.CmdGet = (holdingController helloStore openQ hello).CmdGet + 1) ∧
      (r.1 ≠ none → r.2.CmdGet = (holdingController helloStore openQ hello).CmdGet) :=
  CmdGet_counts_completed_gets memStore (holdingController helloStore openQ hello)
    ["GET", "q/close/open"] closeOpenQ (by decide) (by decide)

/-- C16: for queue and consumer-group names `q` and `g` that contain none of
`/`, `:` and `t=`, every subcommand `s` among "open", "close", "close/open",
"abort", "peek" and every non-empty digit string `n`, the parser returns the
same command on the queue specs `q:g/s` and `q:g/t=n/s`, with queue name `q`,
consumer group `g` and subcommand `s`, and on `q/s` and `q/t=n/s` the command
with queue name `q`, no consumer group and subcommand `s`. -/
theorem parse_documented_grammar (name q g n s : String) (rest : List String)
    (hq1 : strings.Contains q "/" = false) (hq2 : strings.Contains q ":" = false)
    (hq3 : strings.Contains q "t=" = false)
    (hg1 : strings.Contains g "/" = false) (hg2 : strings.Contains g ":" = false)
    (hg3 : strings.Contains g "t=" = false)
    (hs : s ∈ ["open", "close", "close/open", "abort", "peek"])
    (hn1 : n.data ≠ []) (hn2 : ∀ c ∈ n.data, c.isDigit = true) :
    parseGetCommand (name :: (q ++ ":" ++ g ++ "/" ++ s) :: rest) = some ⟨name, q, s, g⟩ ∧
    parseGetCommand (name :: (q ++ ":" ++ g ++ "/t=" ++ n ++ "/" ++ s) :: rest)
      = some ⟨name, q, s, g⟩ ∧
    parseGetCommand (name :: (q ++ "/" ++ s) :: rest) = some ⟨name, q, s, ""⟩ ∧
    parseGetCommand (name :: (q ++ "/t=" ++ n ++ "/" ++ s) :: rest) = some ⟨name, q, s, ""⟩ := by
  have hsc : strings.Contains s "t=" = false ∧ strings.Trim s "/" = s := by
    simp only [List.mem_cons, List.mem_singleton, List.not_mem_nil, or_false] at hs
    rcases hs with h | h | h | h | h <;> subst h <;> decide
  have hqm : ':' ∉ q.data := Contains_eq_false_singleton q ':' hq2
  have hqs : '/' ∉ q.data := Contains_eq_false_singleton q '/' hq1
  have hgs : '/' ∉ g.data := Contains_eq_false_singleton g '/' hg1
  have hqg1 : strings.Contains (q ++ ":" ++ g) "/" = false := by
    cases hc : strings.Contains (q ++ ":" ++ g) "/" with
    | false => rfl
    | true =>
      have := (containsL_singleton '/' _).mp hc
      rw [data_colon_append] at this
      simp [hqs, hgs] at this
  have hqg3 : strings.Contains (q ++ ":" ++ g) "t=" = false := by
    simp only [strings.Contains, data_colon_append]
    exact clean_append_sep q.data g.data ':' hq3 hg3 (by decide) (by decide)
  have hA : parseGetCommand (name :: (q ++ ":" ++ g ++ "/" ++ s) :: rest)
      = some ⟨name, q, s, g⟩ := by
    rw [parse_with_subcommand name (q ++ ":" ++ g) s rest hqg1 hqg3 hsc.1 hsc.2,
      parse_bare_group name q g rest hq1 hq2 hq3 hg1 hg2 hg3]
    rfl
  have hB : parseGetCommand (name :: (q ++ "/" ++ s) :: rest) = some ⟨name, q, s, ""⟩ := by
    rw [parse_with_subcommand name q s rest hq1 hq3 hsc.1 hsc.2,
      parse_bare name q rest hq1 hq2 hq3]
    rfl
  refine ⟨hA, ?_, hB, ?_⟩
  · rw [parse_with_marker name (q ++ ":" ++ g) n s rest hqg3 hsc.1 hn1 hn2, hA]
  · rw [parse_with_marker name q n s rest hq3 hsc.1 hn1 hn2, hB]

/-- Witness of C16: queue `work`, group `audit`, subcommand `close/open`,
timeout `250`. -/
theorem parse_documented_grammar_witness :
    parseGetCommand ("GET" :: ("work" ++ ":" ++ "audit" ++ "/" ++ "close/open") :: [])
      = some ⟨"GET", "work", "close/open", "audit"⟩ ∧
    parseGetCommand
        ("GET" :: ("work" ++ ":" ++ "audit" ++ "/t=" ++ "250" ++ "/" ++ "close/open") :: [])
      = some ⟨"GET", "work", "close/open", "audit"⟩ ∧
    parseGetCommand ("GET" :: ("work" ++ "/" ++ "close/open") :: [])
      = some ⟨"GET", "work", "close/open", ""⟩ ∧
    parseGetCommand ("GET" :: ("work" ++ "/t=" ++ "250" ++ "/" ++ "close/open") :: [])
      = some ⟨"GET", "work", "close/open", ""⟩ :=
  parse_documented_grammar "GET" "work" "audit" "250" "close/open" []
    (by decide) (by decide) (by decide) (by decide) (by decide) (by decide) (by decide)
    (by decide) (by decide)

/-- C17 fails on the code: for the queue spec `qt=10/` (queue `q` followed by
the timeout marker) the parser returns the raw spec as queue name, marker and
`/` included, because the queue name is taken from the token before the
marker is stripped and the stripped token `q` has no `/` left to trigger the
split that the sibling path `q/t=10` takes. -/
theorem queue_name_keeps_unstripped_spec :
    parseGetCommand ["GET", "qt=10/"] = some ⟨"GET", "qt=10/", "", ""⟩ ∧
    strings.Contains "qt=10/" "/" = true ∧
    timeoutRegexp.ReplaceAllString "qt=10/" = "q" ∧
    parseGetCommand ["GET", "q/t=10"] = some ⟨"GET", "q", "", ""⟩ := by
  decide

/-- C18: for every command, getConsumer returns exactly the result of
GetQueue(QueueName) when ConsumerGroup is empty; when ConsumerGroup is not
empty and GetQueue fails it returns that error, having issued the queue
lookup only; and when GetQueue succeeds with a queue it returns exactly the
result of that queue's ConsumerGroup(ConsumerGroup), issued on the store the
lookup left. -/
theorem getConsumer_resolution (S : Store σ κ) (c : Controller σ κ) (cmd : Command) :
    (cmd.ConsumerGroup = "" →
        (c.getConsumer S cmd).1 = (S.GetQueue c.repo cmd.QueueName).1 ∧
        (c.getConsumer S cmd).2.repo = (S.GetQueue c.repo cmd.QueueName).2 ∧
        (c.getConsumer S cmd).2.calls = c.calls ++ [Call.GetQueue cmd.QueueName]) ∧
    (cmd.ConsumerGroup ≠ "" → ∀ err, (S.GetQueue c.repo cmd.QueueName).1 = .error err →
        (c.getConsumer S cmd).1 = .error err ∧
        (c.getConsumer S cmd).2.repo = (S.GetQueue c.repo cmd.QueueName).2 ∧
        (c.getConsumer S cmd).2.calls = c.calls ++ [Call.GetQueue cmd.QueueName]) ∧
    (cmd.ConsumerGroup ≠ "" → ∀ q, (S.GetQueue c.repo cmd.QueueName).1 = .ok q →
        (c.getConsumer S cmd).1
          = (S.ConsumerGroup (S.GetQueue c.repo cmd.QueueName).2 q cmd.ConsumerGroup).1 ∧
        (c.getConsumer S cmd).2.repo
          = (S.ConsumerGroup (S.GetQueue c.repo cmd.QueueName).2 q cmd.ConsumerGroup).2 ∧
        (c.getConsumer S cmd).2.calls
          = c.calls ++ [Call.GetQueue cmd.QueueName, Call.ConsumerGroup q cmd.ConsumerGroup]) := by
  refine ⟨?_, ?_, ?_⟩
  · intro hg
    simp [Controller.getConsumer, hg]
  · intro hg err herr
    simp [Controller.getConsumer, hg, herr]
  · intro hg q hq
    simp [Controller.getConsumer, hg, hq]

/-- Witness of C18: the three cases on the in-memory store: `q` without
group, the group `g` of the missing queue `nope`, and the group `g` of `q`. -/
theorem getConsumer_resolution_witness :
    ((freshController groupStore).getConsumer memStore openQ).1
        = (memStore.GetQueue groupStore "q").1 ∧
    ((freshController groupStore).getConsumer memStore ⟨"GET", "nope", "open", "g"⟩).1
        = .error "queue not found" ∧
    ((freshController groupStore).getConsumer memStore openQG).1
        = (memStore.ConsumerGroup (memStore.GetQueue groupStore "q").2 "q" "g").1 :=
  ⟨((getConsumer_resolution memStore (freshController groupStore) openQ).1 (by decide)).1,
    ((getConsumer_resolution memStore (freshController groupStore)
      ⟨"GET", "nope", "open", "g"⟩).2.1 (by decide) "queue not found" rfl).1,
    ((getConsumer_resolution memStore (freshController groupStore) openQG).2.2 (by decide)
      "q" rfl).1⟩

/-- C19 as stated fails when PutBack fails: a connection holds "hello"
obtained from the queue `a` and sends `GET b/abort` for the existing queue `b`
to a store whose PutBack returns an error. PutBack of "hello" is called on
`b`, but Get returns a server error, the item stays held and the open-reads
counter of `b` is not decremented. -/
theorem abort_on_other_queue_can_fail :
    openedFromA.currentValue = some hello ∧ openedFromA.openReads "a" = 1 ∧
    (rejectingStore.GetQueue openedFromA.repo "b").1.toOption = some "b" ∧
    (Controller.Get rejectingStore openedFromA ["GET", "b/abort"]).map
        (fun r => (r.1, r.2.currentValue, r.2.openReads "a", r.2.openReads "b"))
      = some (some "SERVER_ERROR put back failed", some hello, 1, 0) ∧
    (Controller.Get rejectingStore openedFromA ["GET", "b/abort"]).map
        (fun r => r.2.calls.getLast?)
      = some (some (Call.PutBack "b" hello (some "put back failed"))) :=
  ⟨by decide, by decide, by decide, by decide, by decide⟩

/-- C19, amended: `abort` and `close` act on the consumer the current command
resolves to, whatever consumer the held item was obtained from. For a
connection holding `v`: if the abort command resolves to the consumer `qB`,
Get calls PutBack of `v` on `qB`; when that PutBack succeeds Get succeeds,
applies the -1 delta to `qB` as its last operation, leaves every other counter
(that of a different consumer `qA` in particular) unchanged and the
connection idle; when it fails Get returns a server error, the item stays
held and no counter changes. If the close command resolves to `qB`, Get
succeeds, applies the -1 delta to `qB` as its only operation after the
lookups, leaves every other counter unchanged and the connection idle. -/
theorem release_acts_on_current_command [DecidableEq κ] (S : Store σ κ)
    (c : Controller σ κ) (inAbort inClose : List String) (cmdA cmdC : Command) (v : Bytes)
    (qA qB : κ)
    (hheld : c.currentValue = some v)
    (hne : qA ≠ qB)
    (hpA : parseGetCommand inAbort = some cmdA) (hsA : cmdA.SubCommand = "abort")
    (hrA : (c.getConsumer S cmdA).1 = .ok qB)
    (hpC : parseGetCommand inClose = some cmdC) (hsC : cmdC.SubCommand = "close")
    (hrC : (c.getConsumer S cmdC).1 = .ok qB) :
    (∃ r, Controller.Get S c inAbort = some r ∧
        ((S.PutBack (c.getConsumer S cmdA).2.repo qB v).1 = none →
          r.1 = none ∧ r.2.currentValue = none ∧
          r.2.calls = (c.getConsumer S cmdA).2.calls
            ++ [Call.PutBack qB v none, Call.UpdateOpenReads qB (-1)] ∧
          r.2.openReads qB = c.openReads qB - 1 ∧ r.2.openReads qA = c.openReads qA ∧
          ∀ k, k ≠ qB → r.2.openReads k = c.openReads k) ∧
        (∀ err, (S.PutBack (c.getConsumer S cmdA).2.repo qB v).1 = some err →
          r.1 = some ("SERVER_ERROR " ++ err) ∧ r.2.currentValue = some v ∧
          r.2.calls = (c.getConsumer S cmdA).2.calls ++ [Call.PutBack qB v (some err)] ∧
          r.2.openReads = c.openReads)) ∧
      ∃ c1, Controller.Get S c inClose = some (none, c1) ∧
        c1.currentValue = none ∧
        c1.calls = (c.getConsumer S cmdC).2.calls ++ [Call.UpdateOpenReads qB (-1)] ∧
        c1.openReads qB = c.openReads qB - 1 ∧ c1.openReads qA = c.openReads qA ∧
        ∀ k, k ≠ qB → c1.openReads k = c.openReads k := by
  constructor
  · have e1 := getConsumer_currentValue S c cmdA
    have e5 := getConsumer_openReads S c cmdA
    rcases hgc : c.getConsumer S cmdA with ⟨res, c1⟩
    rw [hgc] at hrA e1 e5
    simp only at hrA e1 e5
    subst hrA
    have hcv : c1.currentValue = some v := by rw [e1, hheld]
    cases hpb : (S.PutBack c1.repo qB v).1 with
    | none =>
      refine ⟨_, Get_abort_held S c inAbort cmdA v qB hpA hsA hheld (by rw [hgc])
        (by rw [hgc]; exact hpb), ?_, ?_⟩
      · intro _
        refine ⟨rfl, rfl, ?_, ?_, ?_, ?_⟩
        · simp [Controller.write, Controller.UpdateOpenReads, Controller.setCurrentState, hgc]
        · simp [Controller.write, Controller.UpdateOpenReads, Controller.setCurrentState, hgc,
            e5, sub_eq_add_neg]
        · simp [Controller.write, Controller.UpdateOpenReads, Controller.setCurrentState, hgc,
            e5, Function.update, hne]
        · intro k hk
          simp [Controller.write, Controller.UpdateOpenReads, Controller.setCurrentState, hgc,
            e5, Function.update, hk]
      · intro err herr
        cases herr
    | some perr =>
      refine ⟨(some ("SERVER_ERROR " ++ perr), { c1 with
          repo := (S.PutBack c1.repo qB v).2,
          calls := c1.calls ++ [Call.PutBack qB v (some perr)] }), ?_, ?_, ?_⟩
      · simp [Controller.Get, hpA, Controller.dispatch, hsA, Controller.abort, hheld, hgc, hpb]
      · intro h
        cases h
      · intro err herr
        cases herr
        exact ⟨rfl, hcv, rfl, e5⟩
  · obtain ⟨c2, hcl⟩ := getClose_of_resolved S c cmdC qB hrC
    obtain ⟨q1, hq1, hv, -, -, -, hcase⟩ := getClose_ok S c c2 cmdC hcl
    have hqq : q1 = qB := by
      rw [hrC] at hq1
      cases hq1
      rfl
    subst hqq
    have hheld2 : c.currentValue ≠ none := by rw [hheld]; simp
    rcases hcase with ⟨hidle, -⟩ | ⟨-, -, hor, hcalls⟩
    · exact absurd hidle hheld2
    · refine ⟨c2.write (goBytes "END\r\n"), ?_, hv, ?_, ?_, ?_, ?_⟩
      · simp [Controller.Get, hpC, Controller.dispatch, hsC, hcl]
      · simp [Controller.write, hcalls]
      · simp [Controller.write, hor, sub_eq_add_neg]
      · simp [Controller.write, hor, Function.update, hne]
      · intro k hk
        simp [Controller.write, hor, Function.update, hk]

/-- Witness of the amended C19: a connection that opened "hello" from the
queue `a` sends `GET b/abort` or `GET b/close`. -/
theorem release_acts_on_current_command_witness :
    ((freshController twoQueues).after memStore ["GET", "a/open"]).currentValue = some hello ∧
    ∃ c1, Controller.Get memStore ((freshController twoQueues).after memStore ["GET", "a/open"])
        ["GET", "b/close"] = some (none, c1) ∧
      c1.currentValue = none ∧
      c1.calls = (((freshController twoQueues).after memStore ["GET", "a/open"]).getConsumer
          memStore ⟨"GET", "b", "close", ""⟩).2.calls ++ [Call.UpdateOpenReads "b" (-1)] ∧
      c1.openReads "b"
        = ((freshController twoQueues).after memStore ["GET", "a/open"]).openReads "b" - 1 ∧
      c1.openReads "a"
        = ((freshController twoQueues).after memStore ["GET", "a/open"]).openReads "a" ∧
      ∀ k, k ≠ "b" → c1.openReads k
        = ((freshController twoQueues).after memStore ["GET", "a/open"]).openReads k :=
  ⟨by decide,
    (release_acts_on_current_command memStore
      ((freshController twoQueues).after memStore ["GET", "a/open"])
      ["GET", "b/abort"] ["GET", "b/close"] ⟨"GET", "b", "abort", ""⟩ ⟨"GET", "b", "close", ""⟩
      hello "a" "b" (by decide) (by decide) (by decide) (by decide) rfl (by decide) (by decide)
      rfl).2⟩

/-- C20: the parser returns a command on every token list with at least two
tokens; in particular, whenever a string contains the separator, splitting it
into at most `n + 2` pieces yields at least two pieces, so the indices 0 and 1
used after the `/` split (n = 0) and after the `:` split (n = 1) are in
range. -/
theorem parseGetCommand_total (input : List String) (htok : 2 ≤ input.length) :
    (∃ cmd, parseGetCommand input = some cmd) ∧
      ∀ (s : String) (sep : Char) (n : Nat), strings.Contains s (String.mk [sep]) = true →
        2 ≤ (strings.SplitN s sep (n + 2)).length := by
  refine ⟨parseGetCommand_isSome input htok, ?_⟩
  intro s sep n h
  obtain ⟨t0, t1, rest, hsp⟩ := SplitN_two_pieces s sep n h
  rw [hsp]
  simp

/-- Witness of C20: the empty queue spec, a spec of delimiters only and a
spec that is only a timeout marker. -/
theorem parseGetCommand_total_witness :
    ((∃ cmd, parseGetCommand ["GET", ""] = some cmd) ∧
      ∀ (s : String) (sep : Char) (n : Nat), strings.Contains s (String.mk [sep]) = true →
        2 ≤ (strings.SplitN s sep (n + 2)).length) ∧
    ((∃ cmd, parseGetCommand ["GET", "/:/:"] = some cmd) ∧
      ∀ (s : String) (sep : Char) (n : Nat), strings.Contains s (String.mk [sep]) = true →
        2 ≤ (strings.SplitN s sep (n + 2)).length) ∧
    ((∃ cmd, parseGetCommand ["GET", "t=5/"] = some cmd) ∧
      ∀ (s : String) (sep : Char) (n : Nat), strings.Contains s (String.mk [sep]) = true →
        2 ≤ (strings.SplitN s sep (n + 2)).length) :=
  ⟨parseGetCommand_total ["GET", ""] (by decide),
    parseGetCommand_total ["GET", "/:/:"] (by decide),
    parseGetCommand_total ["GET", "t=5/"] (by decide)⟩

end FurtherClaims

end Siberite
